import Mathlib

/-! # rules_helm packager: stamping, stamp collection, image labels, result metadata

A shallow embedding of `helm/private/packager/tpl.go` and
`helm/private/packager/packager.go`.

Go strings are byte strings; they are embedded as `List Char`, one list
element per byte of the Go string.  Go maps `map[string]string` are embedded as
association lists with pairwise distinct keys.  Code that can end the process
(`log.Fatal`) returns `Option`, with `none` for the fatal exit.
-/

set_option autoImplicit false

namespace Packager

/-- A Go `string`. -/
abbrev Str := List Char

/-- A Go `error` value, identified by its message. -/
abbrev GoError := Str

/-! ## Library functions of package `strings` -/

/-- The function `strings.Index(s, sep)`: the index of the first instance of `sep` in `s`;
`none` stands for the result `-1`. -/
def Index : Str → Str → Option Nat
  | [], sep => if sep = [] then some 0 else none
  | c :: t, sep =>
    if sep.isPrefixOf (c :: t) then some 0
    else (Index t sep).map (· + 1)

/-- The function `strings.HasPrefix(s, prefix)`. -/
def HasPrefix (s pre : Str) : Bool := pre.isPrefixOf s

/-- The function `strings.Contains(s, substr)`. -/
def Contains (s substr : Str) : Bool := (Index s substr).isSome

/-- The function `strings.Replace(s, old, new, 1)` for a non-empty `old`: the first instance of
`old` is replaced by `new`. -/
def Replace1 (s old new : Str) : Str :=
  match Index s old with
  | none => s
  | some i => s.take i ++ new ++ s.drop (i + old.length)

/-- The function `strings.SplitN(s, sep, 2)` for a non-empty `sep`: at most two substrings, the
second one being the unsplit remainder. -/
def SplitN2 (s sep : Str) : List Str :=
  match Index s sep with
  | none => [s]
  | some i => [s.take i, s.drop (i + sep.length)]

/-! ## Go maps -/

/-- Value bound to `k` in an association list. -/
def lookupEntries (k : Str) : List (Str × Str) → Option Str
  | [] => none
  | (k', v') :: rest => if k' = k then some v' else lookupEntries k rest

/-- Bind `k` to `v` in an association list: an existing binding is overwritten in place, a new
one is added. -/
def setEntries (k v : Str) : List (Str × Str) → List (Str × Str)
  | [] => [(k, v)]
  | (k', v') :: rest =>
    if k' = k then (k, v) :: rest else (k', v') :: setEntries k v rest

/-- A Go `map[string]string`: finitely many bindings, no key bound twice. -/
structure GoMap where
  entries : List (Str × Str)
  nodup : (entries.map Prod.fst).Nodup

namespace GoMap

/-- The map `make(map[string]string)`. -/
def empty : GoMap := ⟨[], List.nodup_nil⟩

/-- The lookup `v, ok := m[k]`; `none` when `ok` is false. -/
def get (m : GoMap) (k : Str) : Option Str := lookupEntries k m.entries

/-- The assignment `m[k] = v`. -/
def set (m : GoMap) (k v : Str) : GoMap :=
  ⟨setEntries k v m.entries, by
    have keys : ∀ l : List (Str × Str), (setEntries k v l).map Prod.fst =
        if k ∈ l.map Prod.fst then l.map Prod.fst else l.map Prod.fst ++ [k] := by
      intro l
      induction l with
      | nil => simp [setEntries]
      | cons p rest ih =>
        obtain ⟨k', v'⟩ := p
        by_cases h : k' = k
        · simp [setEntries, h]
        · have h' : ¬ k = k' := fun e => h e.symm
          simp only [setEntries, h, if_false, List.map_cons, ih, List.mem_cons, h', false_or]
          split <;> simp
    rw [keys]
    split
    · exact m.nodup
    · rename_i hk
      rw [List.nodup_append]
      refine ⟨m.nodup, List.nodup_singleton k, ?_⟩
      intro a ha hb
      simp only [List.mem_singleton] at hb
      subst hb
      exact hk ha⟩

/-- The keys of the map. -/
def keys (m : GoMap) : List Str := m.entries.map Prod.fst

end GoMap

/-! ## tpl.go -/

/-- An `io.Writer` with state `σ`: `WriteString w s` gives the writer after the call, the number
of bytes written and the error, if any. -/
structure Writer (σ : Type) where
  WriteString : σ → Str → σ × Int × Option GoError

/-- The type `TagFunc`: called with the writer and the tag, it gives the writer after the call,
the returned `int` and the returned error. -/
abbrev TagFunc (σ : Type) := σ → Str → σ × Int × Option GoError

/-- The tail of `ExecuteFunc` after its loop (lines 55 to 58): the rest of the template is
written and the byte count and the error of that write are returned. -/
def executeFinish {σ : Type} (wr : Writer σ) (w : σ) (s : Str) (nn : Int) :
    σ × Int × Option GoError :=
  let r := wr.WriteString w s
  (r.1, nn + r.2.1, r.2.2)

/-- The loop of `ExecuteFunc` (lines 28 to 54) followed by its tail, run for at most `fuel`
iterations on the unscanned remainder `s`; `none` when the iterations are used up.  The result
is the writer, the returned `int64` and the returned error.  The count `nn` is kept as an
integer: it sums the byte counts of the writes, which stay below `2^63`. -/
def executeLoop {σ : Type} (wr : Writer σ) (startTag endTag : Str) (f : TagFunc σ) :
    Nat → Str → σ → Int → Option (σ × Int × Option GoError)
  | 0, _, _, _ => none
  | fuel + 1, s, w, nn =>
    match Index s startTag with
    | none => some (executeFinish wr w s nn)
    | some n =>
      let r := wr.WriteString w (s.take n)
      let nn := nn + r.2.1
      match r.2.2 with
      | some err => some (r.1, nn, some err)
      | none =>
        let s := s.drop (n + startTag.length)
        match Index s endTag with
        | none =>
          let r2 := wr.WriteString r.1 startTag
          some (executeFinish wr r2.1 s (nn + r2.2.1))
        | some n =>
          let r2 := f r.1 (s.take n)
          let nn := nn + r2.2.1
          match r2.2.2 with
          | some err => some (r2.1, nn, some err)
          | none => executeLoop wr startTag endTag f fuel (s.drop (n + endTag.length)) r2.1 nn

/-- The function `ExecuteFunc(template, startTag, endTag, w, f)`, its loop bounded by `fuel`
iterations. -/
def ExecuteFunc {σ : Type} (fuel : Nat) (template startTag endTag : Str) (wr : Writer σ) (w : σ)
    (f : TagFunc σ) : Option (σ × Int × Option GoError) :=
  executeLoop wr startTag endTag f fuel template w 0

/-! ## packager.go: ApplyStamping -/

/-- A `strings.Builder` as an `io.Writer`: the state is the text built so far, a write appends
and never fails. -/
def builderWriter : Writer Str :=
  ⟨fun sb s => (sb ++ s, (s.length : Int), none)⟩

/-- The tag function that `ApplyStamping` passes to `ExecuteFunc` (lines 214 to 219). -/
def stampTag (stamps : GoMap) : TagFunc Str := fun w tag =>
  match stamps.get tag with
  | some val => builderWriter.WriteString w val
  | none => builderWriter.WriteString w (['{'] ++ tag ++ ['}'])

/-- Text that the tag function of `ApplyStamping` writes for `tag`. -/
def tagText (stamps : GoMap) (tag : Str) : Str :=
  match stamps.get tag with
  | some val => val
  | none => ['{'] ++ tag ++ ['}']

/-- The function `ApplyStamping(content, stamps)`, the loop of `ExecuteFunc` bounded by `fuel`
iterations: `none` when the iterations are used up or `ExecuteFunc` returns an error
(`log.Fatal`). -/
def ApplyStampingFuel (fuel : Nat) (content : Str) (stamps : GoMap) : Option Str :=
  match ExecuteFunc fuel content ['{'] ['}'] builderWriter [] (stampTag stamps) with
  | some (sb, _, none) => some sb
  | _ => none

/-- The function `ApplyStamping(content, stamps)`.  Every iteration of the loop of `ExecuteFunc`
consumes a `{`, so `len(content) + 1` iterations are as good as unboundedly many
(`ApplyStampingFuel_eq`). -/
def ApplyStamping (content : Str) (stamps : GoMap) : Option Str :=
  ApplyStampingFuel (content.length + 1) content stamps

/-- Stamp mapping `{A -> "{B}", B -> "x"}`. -/
def exampleStamps : GoMap :=
  ⟨[("A".toList, "{B}".toList), ("B".toList, "x".toList)], by decide⟩

/-- Stamp mapping `{K -> "v"}`. -/
def oneStamp : GoMap := ⟨[("K".toList, "v".toList)], by decide⟩

/-! ## packager.go: LoadStamps -/

/-- The files of the file system: the content of the file at a path, `none` when the file
cannot be opened or read. -/
abbrev FileSystem := Str → Option Str

/-- The constant `bufio.MaxScanTokenSize`, the buffer limit of a `bufio.Scanner`. -/
def MaxScanTokenSize : Nat := 64 * 1024

/-- The function `dropCR` of package `bufio`: a terminal `\r` is dropped. -/
def dropCR (data : Str) : Str :=
  if data.getLast? = some '\r' then data.dropLast else data

/-- The lines that `scanner.Scan()` with the split function `bufio.ScanLines` delivers for the
unread input, `cur` being the bytes of the current line read so far: a line ends at `\n`, a
terminal `\r` is dropped, a last line without `\n` is delivered when it is not empty, and
scanning stops (`bufio.ErrTooLong`, which `LoadStamps` does not look at) once a line fills the
buffer of `MaxScanTokenSize` bytes before its `\n` is seen. -/
def scanLinesFrom : Str → Str → List Str
  | cur, [] => if cur = [] then [] else [dropCR cur]
  | cur, c :: rest =>
    if c = '\n' then dropCR cur :: scanLinesFrom [] rest
    else if MaxScanTokenSize ≤ cur.length + 1 then []
    else scanLinesFrom (cur ++ [c]) rest

/-- The lines that the scanner of `LoadStamps` delivers for a file content. -/
def scanLines (content : Str) : List Str := scanLinesFrom [] content

/-- The lines of a text, `cur` being the current line so far: a line ends at `\n`, a terminal
`\r` is not part of it, and the text after the last `\n` is a line when it is not empty. -/
def textLinesFrom : Str → Str → List Str
  | cur, [] => if cur = [] then [] else [dropCR cur]
  | cur, c :: rest =>
    if c = '\n' then dropCR cur :: textLinesFrom [] rest
    else textLinesFrom (cur ++ [c]) rest

/-- The lines of a text. -/
def textLines (content : Str) : List Str := textLinesFrom [] content

/-- The scanning loop of `LoadStamps` (lines 99 to 107) over the lines of one file. -/
def scanStamps (stamps : GoMap) : List Str → GoMap
  | [] => stamps
  | line :: rest =>
    let split := SplitN2 line [' ']
    if split.length < 2 then scanStamps stamps rest
    else scanStamps (stamps.set (split.getD 0 []) (split.getD 1 [])) rest

/-- The loop of `LoadStamps` over the stamp files (lines 84 to 108); `none` when a file cannot
be opened (`log.Fatalf`). -/
def loadStampFiles (fs : FileSystem) : GoMap → List Str → Option GoMap
  | stamps, [] => some stamps
  | stamps, stampFile :: rest =>
    if stampFile.length = 0 then loadStampFiles fs stamps rest
    else
      match fs stampFile with
      | none => none
      | some content => loadStampFiles fs (scanStamps stamps (scanLines content)) rest

/-- The function `LoadStamps(volatile, stable)`. -/
def LoadStamps (fs : FileSystem) (volatile stable : Str) : Option GoMap :=
  loadStampFiles fs GoMap.empty [volatile, stable]

/-- The text of a line before its first space. -/
def lineKey (line : Str) : Str := line.takeWhile (· ≠ ' ')

/-- The text of a line after its first space. -/
def lineValue (line : Str) : Str := (line.dropWhile (· ≠ ' ')).drop 1

/-- The value that a list of lines binds to the key `k`, in the words of the specification: in
the last line that contains a space and whose text before its first space is `k`, the text
after that first space; `none` when there is no such line. -/
def lastBinding (lines : List Str) (k : Str) : Option Str :=
  (lines.reverse.find? (fun l => decide (' ' ∈ l ∧ lineKey l = k))).map lineValue

/-- Three status files: `A` holds `FOO 1` and `BAR x y`, `B` holds `novalue` and `FOO 2`, `T`
holds `BUILD_TIME Mon Jan 1`. -/
def exampleFS : FileSystem := fun p =>
  if p = "A".toList then some "FOO 1\nBAR x y\n".toList
  else if p = "B".toList then some "novalue\r\nFOO 2".toList
  else if p = "T".toList then some "BUILD_TIME Mon Jan 1\n".toList
  else none

/-! ## packager.go: the merge in main -/

/-- The merge loop of `main` (lines 397 to 399): `order` is the sequence in which
`range imageStamps` delivers the entries of the image mapping. -/
def mergeStamps (stamps : GoMap) (order : List (Str × Str)) : GoMap :=
  order.foldl (fun m kv => m.set kv.1 kv.2) stamps

/-- Stamp mapping `{A -> "1", B -> "2"}`. -/
def stampsAB : GoMap := ⟨[("A".toList, "1".toList), ("B".toList, "2".toList)], by decide⟩

/-- Image mapping `{B -> "3", C -> "4"}`. -/
def imagesBC : GoMap := ⟨[("B".toList, "3".toList), ("C".toList, "4".toList)], by decide⟩

/-! ## packager.go: LoadImageStamps -/

/-- The struct `ImageManifest`. -/
structure ImageManifest where
  Label : Str
  Registry : Str
  Repository : Str
  Digest : Str

/-- The body of the loop of `LoadImageStamps` from line 134 on: the registry URL of one
manifest is registered under its label and under the other spellings of the label. -/
def registerImage (workspaceName : Str) (images : GoMap) (manifest : ImageManifest) : GoMap :=
  let registryUrl := manifest.Registry ++ ['/'] ++ manifest.Repository ++ ['@'] ++ manifest.Digest
  let images := images.set manifest.Label registryUrl
  if HasPrefix manifest.Label ['@'] then
    let images :=
      if HasPrefix manifest.Label ['@', '/', '/'] then
        let absLabel := ['@'] ++ workspaceName
          ++ Replace1 manifest.Label ['@', '/', '/'] ['/', '/']
        let images := images.set absLabel registryUrl
        let localLabel := ['@'] ++ workspaceName
          ++ Replace1 manifest.Label ['@', '/', '/'] ['/', '/']
        let images := images.set localLabel registryUrl
        let absRelativeLabel := ['@', '@'] ++ Replace1 manifest.Label ['@', '/', '/'] ['/', '/']
        images.set absRelativeLabel registryUrl
      else images
    let images :=
      if HasPrefix manifest.Label ['@', '@', '/', '/'] then
        let absLabel := ['@', '@'] ++ workspaceName
          ++ Replace1 manifest.Label ['@', '@', '/', '/'] ['/', '/']
        let images := images.set absLabel registryUrl
        let localLabel := ['@'] ++ workspaceName
          ++ Replace1 manifest.Label ['@', '@', '/', '/'] ['/', '/']
        let images := images.set localLabel registryUrl
        let relativeLabel := ['@'] ++ Replace1 manifest.Label ['@', '@', '/', '/'] ['/', '/']
        images.set relativeLabel registryUrl
      else images
    if HasPrefix manifest.Label "@@_main//".toList then
      let absLabel := ['@', '@'] ++ workspaceName
        ++ Replace1 manifest.Label "@@_main//".toList ['/', '/']
      let images := images.set absLabel registryUrl
      let localLabel := ['@'] ++ workspaceName
        ++ Replace1 manifest.Label "@@_main//".toList ['/', '/']
      let images := images.set localLabel registryUrl
      let relativeLabel := ['@'] ++ Replace1 manifest.Label "@@_main//".toList ['/', '/']
      images.set relativeLabel registryUrl
    else images
  else images

/-- The loop of `LoadImageStamps` over the manifest paths (lines 128 to 167); `none` when a
manifest cannot be read (`log.Fatalf`). -/
def loadImages (fs : FileSystem) (workspaceName : Str) (applyReadManifest : Str → ImageManifest) :
    GoMap → List Str → Option GoMap
  | images, [] => some images
  | images, path :: rest =>
    match fs path with
    | none => none
    | some content =>
      loadImages fs workspaceName applyReadManifest
        (registerImage workspaceName images (applyReadManifest content)) rest

/-- The function `LoadImageStamps(imageManifest, workspaceName, applyReadManifest)`.
`unmarshalPaths` is `json.Unmarshal` into the `[]string` of line 127, whose error the code
drops: the paths it leaves in `paths` for a file content. -/
def LoadImageStamps (fs : FileSystem) (unmarshalPaths : Str → List Str)
    (imageManifest workspaceName : Str) (applyReadManifest : Str → ImageManifest) :
    Option GoMap :=
  if imageManifest.length = 0 then some GoMap.empty
  else
    match fs imageManifest with
    | none => none
    | some content =>
      loadImages fs workspaceName applyReadManifest GoMap.empty (unmarshalPaths content)

/-- An image manifest file `images.json` that lists the one descriptor file `img.json`. -/
def imageFS : FileSystem := fun p =>
  if p = "images.json".toList then some "[\"img.json\"]".toList
  else if p = "img.json".toList then some "pkg:img".toList
  else none

/-- A manifest reader for `imageFS`: the descriptor file holds the label after `@//`. -/
def imageReader : Str → ImageManifest := fun content =>
  ⟨"@//".toList ++ content, "reg.io".toList, "repo/img".toList, "sha256:ab".toList⟩

/-- A path decoder for `imageFS`. -/
def imagePaths : Str → List Str := fun content =>
  if content = "[\"img.json\"]".toList then ["img.json".toList] else []

/-- The mapping binds `label` to `url` and binds nothing to another value. -/
def onlyUrl (label url : Str) (m : GoMap) : Prop :=
  m.get label = some url ∧ ∀ k v, m.get k = some v → v = url

/-! ## Package `regexp`, for the two patterns of the packager -/

/-- One instruction of a pattern: the patterns of the packager repeat single characters
only. -/
inductive Inst where
  /-- One character of a class. -/
  | char (p : Char → Bool)
  /-- Greedy `x*` for a class `x`. -/
  | star (p : Char → Bool)
  /-- Greedy `x+` for a class `x`. -/
  | plus (p : Char → Bool)
  /-- An opening or closing parenthesis, recorded in slot `slot`. -/
  | save (slot : Nat)

/-- The result of matching: the input after the match and the input at each parenthesis
passed, latest first. -/
abbrev MatchResult := Str × List (Nat × Str)

/-- Greedy repetition of the class `p`, `k` matching what follows it: as a backtracking
search, the longest repetition is tried first. -/
def starK (p : Char → Bool) (k : Str → Option MatchResult) : Str → Option MatchResult
  | [] => k []
  | c :: t =>
    if p c then
      match starK p k t with
      | some r => some r
      | none => k (c :: t)
    else k (c :: t)

/-- The match of a pattern at the start of the input that a backtracking search finds
first. -/
def matchInsts : List Inst → Str → List (Nat × Str) → Option MatchResult
  | [], s, caps => some (s, caps)
  | Inst.char p :: rest, s, caps =>
    match s with
    | [] => none
    | c :: t => if p c then matchInsts rest t caps else none
  | Inst.star p :: rest, s, caps => starK p (fun s' => matchInsts rest s' caps) s
  | Inst.plus p :: rest, s, caps =>
    match s with
    | [] => none
    | c :: t => if p c then starK p (fun s' => matchInsts rest s' caps) t else none
  | Inst.save slot :: rest, s, caps => matchInsts rest s ((slot, s) :: caps)

/-- The leftmost match of a pattern in the input: the input from the start of the match on,
and the result of the match. -/
def findMatch (re : List Inst) : Str → Option (Str × MatchResult)
  | [] => (matchInsts re [] []).map (fun r => ([], r))
  | c :: t =>
    match matchInsts re (c :: t) [] with
    | some r => some (c :: t, r)
    | none => findMatch re t

/-- The text between two positions of the input, each given by the input from there on. -/
def textBetween (start stop : Str) : Str := start.take (start.length - stop.length)

/-- The text of group `i`, between the parentheses of slots `2 * i` and `2 * i + 1`; the empty
text for a group that did not take part in the match. -/
def groupText (caps : List (Nat × Str)) (i : Nat) : Str :=
  match caps.lookup (2 * i), caps.lookup (2 * i + 1) with
  | some start, some stop => textBetween start stop
  | _, _ => []

/-- The method `re.FindAllString(s, 1)`: the text of the leftmost match, if there is one. -/
def FindAllString1 (re : List Inst) (s : Str) : List Str :=
  match findMatch re s with
  | none => []
  | some (start, stop, _) => [textBetween start stop]

/-- The first element of `re.FindAllStringSubmatch(s, 2)` for a pattern with `groups` groups:
the text of the leftmost match and of each of its groups; `none` when the result is empty. -/
def FindFirstSubmatch (re : List Inst) (groups : Nat) (s : Str) : Option (List Str) :=
  match findMatch re s with
  | none => none
  | some (start, stop, caps) =>
    some (textBetween start stop :: (List.range groups).map (fun i => groupText caps (i + 1)))

/-- The class `.`: every character but the line feed. -/
def anyChar (c : Char) : Bool := c != '\n'

/-- The class `\d`. -/
def digitChar (c : Char) : Bool := decide ('0' ≤ c ∧ c ≤ '9')

/-- The class `\w`. -/
def wordChar (c : Char) : Bool :=
  digitChar c || decide ('A' ≤ c ∧ c ≤ 'Z') || decide ('a' ≤ c ∧ c ≤ 'z') || c == '_'

/-- The class `[\d\w\-\.]`. -/
def versionChar (c : Char) : Bool := digitChar c || wordChar c || c == '-' || c == '.'

/-- The pattern `.*{.+}.*` of `SanitizeChartContent`. -/
def placeholderPattern : List Inst :=
  [Inst.star anyChar, Inst.char (· == '{'), Inst.plus anyChar, Inst.char (· == '}'),
    Inst.star anyChar]

/-- The pattern `(.+)-([\d][\d\w\-\.]+)\.tgz` of `WriteResultsMetadata`. -/
def packagePattern : List Inst :=
  [Inst.save 2, Inst.plus anyChar, Inst.save 3, Inst.char (· == '-'),
    Inst.save 4, Inst.char digitChar, Inst.plus versionChar, Inst.save 5,
    Inst.char (· == '.'), Inst.char (· == 't'), Inst.char (· == 'g'), Inst.char (· == 'z')]

/-! ## packager.go: WriteResultsMetadata -/

/-- The struct `HelmResultMetadata`. -/
structure HelmResultMetadata where
  Name : Str
  Version : Str
deriving DecidableEq

/-- The metadata that `WriteResultsMetadata(packageBase, output)` encodes into the output file
(lines 345 to 355); `none` when the file name does not match (`log.Fatalf`). -/
def WriteResultsMetadata (packageBase : Str) : Option HelmResultMetadata :=
  match FindFirstSubmatch packagePattern 2 packageBase with
  | none => none
  | some m => some ⟨m.getD 1 [], m.getD 2 []⟩

/-! ## packager.go: SanitizeChartContent -/

/-- The struct `HelmChart`; its field `Type` is named `ChartType` here. -/
structure HelmChart where
  ApiVersion : Str
  Name : Str
  Description : Str
  ChartType : Str
  Version : Str
  AppVersion : Str
deriving DecidableEq

/-- The call `strings.NewReplacer("{", "", "}", "", "_", "-").Replace(s)`. -/
def replacerReplace : Str → Str
  | [] => []
  | c :: t =>
    if c = '{' then replacerReplace t
    else if c = '}' then replacerReplace t
    else if c = '_' then '-' :: replacerReplace t
    else c :: replacerReplace t

/-- The scan of `strings.ReplaceAll` for a non-empty `old`: `skip` characters of an instance of
`old` found before are still to be passed over. -/
def replaceAllFrom (old new : Str) : Nat → Str → Str
  | _, [] => []
  | skip + 1, _ :: t => replaceAllFrom old new skip t
  | 0, c :: t =>
    if old.isPrefixOf (c :: t) then new ++ replaceAllFrom old new (old.length - 1) t
    else c :: replaceAllFrom old new 0 t

/-- The function `strings.ReplaceAll(s, old, new)`: the instances of `old`, found from left to
right without overlap, are replaced by `new`; an empty `old` matches before every character
and at the end. -/
def ReplaceAll (s old new : Str) : Str :=
  if old = [] then new ++ s.flatMap (fun c => c :: new)
  else replaceAllFrom old new 0 s

/-- The function `SanitizeChartContent(content)`.  `unmarshal` is `yaml.Unmarshal` into a
`HelmChart`: the chart it reads from a text, `none` when it returns an error (`log.Fatal`). -/
def SanitizeChartContent (unmarshal : Str → Option HelmChart) (content : Str) : Option Str :=
  match unmarshal content with
  | none => none
  | some chart =>
    let m := FindAllString1 placeholderPattern chart.Version
    if m.length ≠ 0 then
      let replacement := replacerReplace (m.getD 0 [])
      some (ReplaceAll content (m.getD 0 []) replacement)
    else some content

/-- The charts that `yaml.Unmarshal` reads from six chart texts: a chart whose version is the
block scalar of the two lines `{A}` and `{B_C}`, and the same chart with `A` for `{A}`; a chart
whose version is the quoted scalar `{BUILD_EMBED_LABEL}`, and the same chart with
`BUILD-EMBED-LABEL` for it; a chart whose version is the quoted scalar `{A\x5fB}`, in which
`\x5f` is the escape sequence of the character `_`; a chart whose version is the quoted scalar
`{}`. -/
def exampleUnmarshal : Str → Option HelmChart := fun content =>
  if content = "name: c\nversion: |-\n  {A}\n  {B_C}\n".toList then
    some ⟨[], "c".toList, [], [], "{A}\n{B_C}".toList, []⟩
  else if content = "name: c\nversion: |-\n  A\n  {B_C}\n".toList then
    some ⟨[], "c".toList, [], [], "A\n{B_C}".toList, []⟩
  else if content = "name: c\nversion: \"{BUILD_EMBED_LABEL}\"\n".toList then
    some ⟨[], "c".toList, [], [], "{BUILD_EMBED_LABEL}".toList, []⟩
  else if content = "name: c\nversion: \"BUILD-EMBED-LABEL\"\n".toList then
    some ⟨[], "c".toList, [], [], "BUILD-EMBED-LABEL".toList, []⟩
  else if content = "name: c\nversion: \"\x7bA\\x5fB\x7d\"\n".toList then
    some ⟨[], "c".toList, [], [], "{A_B}".toList, []⟩
  else if content = "name: c\nversion: \"{}\"\n".toList then
    some ⟨[], "c".toList, [], [], "{}".toList, []⟩
  else none

/-- The end of the pattern of `WriteResultsMetadata`: the closing parenthesis of the version
group and `\.tgz`. -/
def tgzInsts : List Inst :=
  [Inst.save 5, Inst.char (· == '.'), Inst.char (· == 't'), Inst.char (· == 'g'),
    Inst.char (· == 'z')]

/-- The pattern of `WriteResultsMetadata` after the name group: `-([\d][\d\w\-\.]+)\.tgz`. -/
def versionInsts : List Inst :=
  [Inst.save 3, Inst.char (· == '-'), Inst.save 4, Inst.char digitChar, Inst.plus versionChar]
    ++ tgzInsts

/-! ## packager.go: FindGeneratedPackage -/

/-- The UTF-8 encodings of the characters that `unicode.IsSpace` holds for: the six of ASCII,
U+0085, U+00A0, U+1680, U+2000 to U+200A, U+2028, U+2029, U+202F, U+205F and U+3000. -/
def spaceEncodings : List Str :=
  [['\t'], ['\n'], ['\x0b'], ['\x0c'], ['\r'], [' '],
    [Char.ofNat 0xC2, Char.ofNat 0x85], [Char.ofNat 0xC2, Char.ofNat 0xA0],
    [Char.ofNat 0xE1, Char.ofNat 0x9A, Char.ofNat 0x80],
    [Char.ofNat 0xE2, Char.ofNat 0x80, Char.ofNat 0x80],
    [Char.ofNat 0xE2, Char.ofNat 0x80, Char.ofNat 0x81],
    [Char.ofNat 0xE2, Char.ofNat 0x80, Char.ofNat 0x82],
    [Char.ofNat 0xE2, Char.ofNat 0x80, Char.ofNat 0x83],
    [Char.ofNat 0xE2, Char.ofNat 0x80, Char.ofNat 0x84],
    [Char.ofNat 0xE2, Char.ofNat 0x80, Char.ofNat 0x85],
    [Char.ofNat 0xE2, Char.ofNat 0x80, Char.ofNat 0x86],
    [Char.ofNat 0xE2, Char.ofNat 0x80, Char.ofNat 0x87],
    [Char.ofNat 0xE2, Char.ofNat 0x80, Char.ofNat 0x88],
    [Char.ofNat 0xE2, Char.ofNat 0x80, Char.ofNat 0x89],
    [Char.ofNat 0xE2, Char.ofNat 0x80, Char.ofNat 0x8A],
    [Char.ofNat 0xE2, Char.ofNat 0x80, Char.ofNat 0xA8],
    [Char.ofNat 0xE2, Char.ofNat 0x80, Char.ofNat 0xA9],
    [Char.ofNat 0xE2, Char.ofNat 0x80, Char.ofNat 0xAF],
    [Char.ofNat 0xE2, Char.ofNat 0x81, Char.ofNat 0x9F],
    [Char.ofNat 0xE3, Char.ofNat 0x80, Char.ofNat 0x80]]

/-- The text without the texts of `encs` that it starts with, one after the other; `skip`
characters of a text of `encs` found before are still to be passed over. -/
def trimStartFrom (encs : List Str) : Nat → Str → Str
  | _, [] => []
  | skip + 1, _ :: t => trimStartFrom encs skip t
  | 0, c :: t =>
    match encs.find? (fun e => e.isPrefixOf (c :: t)) with
    | some e => trimStartFrom encs (e.length - 1) t
    | none => c :: t

/-- The function `strings.TrimSpace(s)`: the white space at the start and at the end of `s` is
cut off. -/
def TrimSpace (s : Str) : Str :=
  (trimStartFrom (spaceEncodings.map List.reverse) 0
    (trimStartFrom spaceEncodings 0 s).reverse).reverse

/-- The function `FindGeneratedPackage(logging)`: the returned path and error.  `stat` tells
for which paths `os.Stat` returns no error. -/
def FindGeneratedPackage (stat : Str → Bool) (logging : Str) : Str × Option GoError :=
  if Contains logging [':'] then
    let split := SplitN2 logging [':']
    let pkg := TrimSpace (split.getD 1 [])
    if stat pkg then (pkg, none)
    else ([], some "failed to find package".toList)
  else ([], some "failed to find package".toList)

/-- The file-existence state in which `/tmp/out/mychart-1.2.3.tgz` is the one path that
exists. -/
def packagePresent : Str → Bool := fun p => decide (p = "/tmp/out/mychart-1.2.3.tgz".toList)

/-- The text of a line after its first colon. -/
def afterColon (line : Str) : Str := (line.dropWhile (· ≠ ':')).drop 1

/-- A writer of which no write fails: `output` gives the bytes written to the writer so far,
and a write appends its bytes to them and returns their number. -/
def WritesAll {σ : Type} (wr : Writer σ) (output : σ → Str) : Prop :=
  ∀ (w : σ) (s : Str),
    output (wr.WriteString w s).1 = output w ++ s ∧
    (wr.WriteString w s).2.1 = (s.length : Int) ∧ (wr.WriteString w s).2.2 = none

/-- A resolver that returns, without error, the number of bytes it wrote to the writer. -/
def CountsWritten {σ : Type} (output : σ → Str) (f : TagFunc σ) : Prop :=
  ∀ (w : σ) (tag : Str), ∃ out : Str,
    output (f w tag).1 = output w ++ out ∧
    (f w tag).2.1 = (out.length : Int) ∧ (f w tag).2.2 = none

/-- A resolver that writes its tag in brackets to a `strings.Builder`. -/
def bracketTag : TagFunc Str := fun w tag =>
  builderWriter.WriteString w (['['] ++ tag ++ [']'])

/-- What `yaml.Unmarshal` reads from the chart text with the plain version `1_0`. -/
def plainUnmarshal : Str → Option HelmChart := fun content =>
  if content = "name: c\nversion: 1_0\n".toList then
    some ⟨[], "c".toList, [], [], "1_0".toList, []⟩
  else none

/-- The lines of a text as they stand, `cur` being the current line so far: a line ends at
`\n`, and the text after the last `\n` is a line when it is not empty. -/
def rawLinesFrom : Str → Str → List Str
  | cur, [] => if cur = [] then [] else [cur]
  | cur, c :: rest =>
    if c = '\n' then cur :: rawLinesFrom [] rest
    else rawLinesFrom (cur ++ [c]) rest

/-- The lines of a text as they stand, a terminal `\r` included. -/
def rawLines (content : Str) : List Str := rawLinesFrom [] content

/-- A status file whose first line has `MaxScanTokenSize` bytes and whose second line is
`FOO 2`. -/
def longLineContent : Str := List.replicate 65536 'a' ++ "\nFOO 2\n".toList

/-- The status files `A`, which holds `FOO 1`, and `L`, which holds `longLineContent`. -/
def longLineFS : FileSystem := fun p =>
  if p = "A".toList then some "FOO 1\n".toList
  else if p = "L".toList then some longLineContent
  else none

/-- An image manifest file `images.json` that lists the two descriptor files `a.json` and
`b.json`, which hold `a` and `b`. -/
def pairFS : FileSystem := fun p =>
  if p = "images.json".toList then some "[\"a.json\",\"b.json\"]".toList
  else if p = "a.json".toList then some "a".toList
  else if p = "b.json".toList then some "b".toList
  else none

/-- A path decoder for `pairFS`. -/
def pairPaths : Str → List Str := fun content =>
  if content = "[\"a.json\",\"b.json\"]".toList then ["a.json".toList, "b.json".toList] else []

/-- A manifest reader for `pairFS`: the descriptor of `a.json` has the label `la` and the
digest `sha256:11`, the descriptor of `b.json` the label `lb` and the digest `sha256:22`. -/
def pairReader (la lb : Str) : Str → ImageManifest := fun content =>
  if content = "a".toList then ⟨la, "reg.io".toList, "repo/img".toList, "sha256:11".toList⟩
  else ⟨lb, "reg.io".toList, "repo/img".toList, "sha256:22".toList⟩

/-- The two mappings are built from `acc` and from the empty mapping by the same assignments of
`url`. -/
def SameSets (url : Str) (acc m m0 : GoMap) : Prop :=
  ∀ k, m.get k = if m0.get k ≠ none then some url else acc.get k

/-! # Theorems -/

/-! ## `strings.Index` -/

theorem Index_bound (sep : Str) : ∀ (s : Str) (n : Nat), Index s sep = some n → n + sep.length ≤ s.length := by
  intro s
  induction s with
  | nil =>
    intro n h
    simp only [Index] at h
    split at h
    · rename_i h0; subst h0; simp at h; simp [← h]
    · simp at h
  | cons c t ih =>
    intro n h
    simp only [Index] at h
    split at h
    · rename_i hp
      have := (List.isPrefixOf_iff_prefix.mp hp).length_le
      simp at h; subst h; simpa using this
    · cases hi : Index t sep with
      | none => simp [hi] at h
      | some m =>
        simp [hi] at h
        have := ih m hi
        subst h
        simp; omega

theorem Index_split (sep : Str) : ∀ (s : Str) (n : Nat), Index s sep = some n →
    s = s.take n ++ sep ++ s.drop (n + sep.length) := by
  intro s
  induction s with
  | nil =>
    intro n h
    simp only [Index] at h
    split at h
    · rename_i h0; subst h0; simp
    · simp at h
  | cons c t ih =>
    intro n h
    simp only [Index] at h
    split at h
    · rename_i hp
      obtain ⟨r, hr⟩ := List.isPrefixOf_iff_prefix.mp hp
      simp at h; subst h
      rw [← hr]; simp
    · cases hi : Index t sep with
      | none => simp [hi] at h
      | some m =>
        simp [hi] at h
        have := ih m hi
        subst h
        rw [show m + 1 + sep.length = (m + sep.length) + 1 by omega]
        simp only [List.take_succ_cons, List.drop_succ_cons, List.cons_append]
        rw [← this]

theorem Index_none (sep : Str) : ∀ (s : Str), Index s sep = none → ¬ sep <:+: s := by
  intro s
  induction s with
  | nil =>
    intro h hi
    simp only [Index] at h
    split at h
    · simp at h
    · rename_i h0; exact h0 (List.infix_nil.mp hi)
  | cons c t ih =>
    intro h hi
    simp only [Index] at h
    split at h
    · simp at h
    · rename_i hp
      cases hx : Index t sep with
      | some m => simp [hx] at h
      | none =>
        rcases List.infix_cons_iff.mp hi with h1 | h1
        · exact hp (List.isPrefixOf_iff_prefix.mpr h1)
        · exact ih hx h1

theorem Index_char_append (c : Char) : ∀ (a r : Str), c ∉ a → Index (a ++ c :: r) [c] = some a.length := by
  intro a
  induction a with
  | nil => intro r _; simp [Index]
  | cons d a ih =>
    intro r h
    simp only [List.mem_cons, not_or] at h
    have hd : ¬ c = d := h.1
    simp [Index, hd, ih r h.2]

theorem Index_char_none (c : Char) : ∀ (s : Str), c ∉ s → Index s [c] = none := by
  intro s
  induction s with
  | nil => intro _; simp [Index]
  | cons d a ih =>
    intro h
    simp only [List.mem_cons, not_or] at h
    have hd : ¬ c = d := h.1
    simp [Index, hd, ih h.2]

theorem Index_char_some (c : Char) : ∀ (s : Str) (n : Nat), Index s [c] = some n →
    c ∉ s.take n ∧ s = s.take n ++ c :: s.drop (n + 1) := by
  intro s
  induction s with
  | nil => intro n h; simp [Index] at h
  | cons d a ih =>
    intro n h
    by_cases hd : c = d
    · subst hd
      simp [Index] at h
      subst h; simp
    · cases hx : Index a [c] with
      | none => simp [Index, hd, hx] at h
      | some m =>
        simp [Index, hd, hx] at h
        subst h
        obtain ⟨h1, h2⟩ := ih m hx
        refine ⟨?_, ?_⟩
        · simp [hd, h1]
        · simp only [List.take_succ_cons, List.drop_succ_cons, List.cons_append]
          rw [← h2]

/-! ## The loop of `ExecuteFunc` -/

theorem executeLoop_succ {σ : Type} (wr : Writer σ) (startTag endTag : Str) (f : TagFunc σ) :
    ∀ (fuel : Nat) (s : Str) (w : σ) (nn : Int) (r : σ × Int × Option GoError),
      executeLoop wr startTag endTag f fuel s w nn = some r →
      executeLoop wr startTag endTag f (fuel + 1) s w nn = some r := by
  intro fuel
  induction fuel with
  | zero => intro s w nn r h; simp [executeLoop] at h
  | succ k ih =>
    intro s w nn r h
    rw [executeLoop] at h
    rw [executeLoop]
    cases h1 : Index s startTag with
    | none => simpa [h1] using h
    | some n =>
      simp only [h1] at h ⊢
      cases h2 : (wr.WriteString w (s.take n)).2.2 with
      | some e => simpa [h2] using h
      | none =>
        simp only [h2] at h ⊢
        cases h3 : Index (s.drop (n + startTag.length)) endTag with
        | none => simpa [h3] using h
        | some m =>
          simp only [h3] at h ⊢
          cases h4 : (f (wr.WriteString w (s.take n)).1
              ((s.drop (n + startTag.length)).take m)).2.2 with
          | some e => simpa [h4] using h
          | none =>
            simp only [h4] at h ⊢
            exact ih _ _ _ _ h

theorem executeLoop_mono {σ : Type} (wr : Writer σ) (startTag endTag : Str) (f : TagFunc σ)
    (fuel fuel' : Nat) (hle : fuel ≤ fuel') (s : Str) (w : σ) (nn : Int)
    (r : σ × Int × Option GoError)
    (h : executeLoop wr startTag endTag f fuel s w nn = some r) :
    executeLoop wr startTag endTag f fuel' s w nn = some r := by
  induction hle with
  | refl => exact h
  | step _ ih => exact executeLoop_succ wr startTag endTag f _ s w nn r ih

theorem executeLoop_terminates {σ : Type} (wr : Writer σ) (startTag endTag : Str) (f : TagFunc σ)
    (hne : startTag ≠ [] ∨ endTag ≠ []) :
    ∀ (fuel : Nat) (s : Str) (w : σ) (nn : Int), s.length < fuel →
      ∃ r, executeLoop wr startTag endTag f fuel s w nn = some r := by
  have hpos : 0 < startTag.length + endTag.length := by
    rcases hne with h | h
    · have := List.length_pos.mpr h; omega
    · have := List.length_pos.mpr h; omega
  intro fuel
  induction fuel with
  | zero => intro s w nn h; omega
  | succ k ih =>
    intro s w nn hlen
    rw [executeLoop]
    cases h1 : Index s startTag with
    | none => exact ⟨_, rfl⟩
    | some n =>
      simp only [h1]
      cases h2 : (wr.WriteString w (s.take n)).2.2 with
      | some e => exact ⟨_, rfl⟩
      | none =>
        simp only [h2]
        cases h3 : Index (s.drop (n + startTag.length)) endTag with
        | none => exact ⟨_, rfl⟩
        | some m =>
          simp only [h3]
          cases h4 : (f (wr.WriteString w (s.take n)).1
              ((s.drop (n + startTag.length)).take m)).2.2 with
          | some e => exact ⟨_, rfl⟩
          | none =>
            simp only [h4]
            apply ih
            have b1 := Index_bound _ _ _ h1
            have b2 := Index_bound _ _ _ h3
            simp only [List.length_drop] at b2 ⊢
            omega

theorem stampTag_eq (stamps : GoMap) (w tag : Str) :
    stampTag stamps w tag = (w ++ tagText stamps tag, ((tagText stamps tag).length : Int), none) := by
  unfold stampTag tagText builderWriter
  cases stamps.get tag <;> rfl

theorem stampLoop_noStart (stamps : GoMap) (k : Nat) (s w : Str) (nn : Int)
    (h : Index s ['{'] = none) :
    executeLoop builderWriter ['{'] ['}'] (stampTag stamps) (k + 1) s w nn
      = some (w ++ s, nn + (s.length : Int), none) := by
  rw [executeLoop]; simp only [h]; rfl

theorem stampLoop_noEnd (stamps : GoMap) (k : Nat) (s w : Str) (nn : Int) (n : Nat)
    (h : Index s ['{'] = some n) (h2 : Index (s.drop (n + 1)) ['}'] = none) :
    ∃ n', executeLoop builderWriter ['{'] ['}'] (stampTag stamps) (k + 1) s w nn
      = some (w ++ s.take n ++ ['{'] ++ s.drop (n + 1), n', none) := by
  rw [executeLoop]; simp only [h]
  simp only [builderWriter, List.length_singleton, h2, executeFinish]
  exact ⟨_, rfl⟩

theorem stampLoop_tag (stamps : GoMap) (k : Nat) (s w : Str) (nn : Int) (n m : Nat)
    (h : Index s ['{'] = some n) (h2 : Index (s.drop (n + 1)) ['}'] = some m) :
    ∃ n', executeLoop builderWriter ['{'] ['}'] (stampTag stamps) (k + 1) s w nn
      = executeLoop builderWriter ['{'] ['}'] (stampTag stamps) k ((s.drop (n + 1)).drop (m + 1))
          (w ++ s.take n ++ tagText stamps ((s.drop (n + 1)).take m)) n' := by
  rw [executeLoop]; simp only [h]
  simp only [builderWriter, List.length_singleton, h2, stampTag_eq]
  exact ⟨_, rfl⟩

theorem stampLoop_spec (stamps : GoMap) :
    ∀ (fuel : Nat) (s w : Str) (nn : Int) (r : Str × Int × Option GoError),
      executeLoop builderWriter ['{'] ['}'] (stampTag stamps) fuel s w nn = some r →
      ∃ o, r.1 = w ++ o ∧ r.2.2 = none ∧
        ∀ (w' : Str) (nn' : Int), ∃ n',
          executeLoop builderWriter ['{'] ['}'] (stampTag stamps) fuel s w' nn'
            = some (w' ++ o, n', none) := by
  intro fuel
  induction fuel with
  | zero => intro s w nn r h; simp [executeLoop] at h
  | succ k ih =>
    intro s w nn r h
    cases h1 : Index s ['{'] with
    | none =>
      rw [stampLoop_noStart stamps k s w nn h1] at h
      simp only [Option.some.injEq] at h
      subst h
      exact ⟨s, rfl, rfl, fun w' nn' => ⟨_, stampLoop_noStart stamps k s w' nn' h1⟩⟩
    | some n =>
      cases h2 : Index (s.drop (n + 1)) ['}'] with
      | none =>
        obtain ⟨n', hn'⟩ := stampLoop_noEnd stamps k s w nn n h1 h2
        rw [hn'] at h
        simp only [Option.some.injEq] at h
        subst h
        refine ⟨s.take n ++ ['{'] ++ s.drop (n + 1), by simp, rfl, fun w' nn' => ?_⟩
        obtain ⟨n'', hn''⟩ := stampLoop_noEnd stamps k s w' nn' n h1 h2
        exact ⟨n'', by rw [hn'']; simp⟩
      | some m =>
        obtain ⟨n', hn'⟩ := stampLoop_tag stamps k s w nn n m h1 h2
        rw [hn'] at h
        obtain ⟨o, ho1, ho2, ho3⟩ := ih _ _ _ _ h
        refine ⟨s.take n ++ tagText stamps ((s.drop (n + 1)).take m) ++ o, by simp [ho1], ho2,
          fun w' nn' => ?_⟩
        obtain ⟨n'', hn''⟩ := stampLoop_tag stamps k s w' nn' n m h1 h2
        obtain ⟨n3, hn3⟩ := ho3 (w' ++ s.take n ++ tagText stamps ((s.drop (n + 1)).take m)) n''
        exact ⟨n3, by rw [hn'', hn3]; simp⟩

/-! ## ApplyStamping -/

theorem take_append_cons (a r : Str) (c : Char) : (a ++ c :: r).take a.length = a := by simp

theorem drop_append_cons (a r : Str) (c : Char) : (a ++ c :: r).drop (a.length + 1) = r := by
  induction a with
  | nil => simp
  | cons d a ih => simp

theorem ApplyStampingFuel_of_loop (stamps : GoMap) (fuel : Nat) (T o : Str) (n : Int)
    (h : executeLoop builderWriter ['{'] ['}'] (stampTag stamps) fuel T [] 0 = some (o, n, none)) :
    ApplyStampingFuel fuel T stamps = some o := by
  unfold ApplyStampingFuel ExecuteFunc
  rw [h]

theorem ApplyStamping_run (stamps : GoMap) (s : Str) :
    ∃ o, ApplyStamping s stamps = some o ∧
      ∀ (fuel : Nat) (w : Str) (nn : Int), s.length < fuel → ∃ n',
        executeLoop builderWriter ['{'] ['}'] (stampTag stamps) fuel s w nn
          = some (w ++ o, n', none) := by
  obtain ⟨r, hr⟩ := executeLoop_terminates builderWriter ['{'] ['}'] (stampTag stamps)
    (Or.inl (by simp)) (s.length + 1) s [] 0 (Nat.lt_succ_self _)
  obtain ⟨o, ho1, ho2, ho3⟩ := stampLoop_spec stamps _ _ _ _ _ hr
  refine ⟨o, ?_, ?_⟩
  · obtain ⟨n', hn'⟩ := ho3 [] 0
    exact ApplyStampingFuel_of_loop stamps _ s o n' (by simpa using hn')
  · intro fuel w nn hlt
    obtain ⟨n', hn'⟩ := ho3 w nn
    exact ⟨n', executeLoop_mono _ _ _ _ _ _ hlt _ _ _ _ hn'⟩

/-- Enough iterations: with more than `len(content)` iterations allowed, `ApplyStampingFuel`
gives the result of `ApplyStamping`. -/
theorem ApplyStampingFuel_eq (stamps : GoMap) (content : Str) (fuel : Nat)
    (h : content.length < fuel) :
    ApplyStampingFuel fuel content stamps = ApplyStamping content stamps := by
  obtain ⟨o, ho1, ho2⟩ := ApplyStamping_run stamps content
  obtain ⟨n', hn'⟩ := ho2 fuel [] 0 h
  rw [ho1]
  exact ApplyStampingFuel_of_loop stamps _ content o n' (by simpa using hn')

theorem ApplyStamping_known (M : GoMap) (K v a b : Str) (hK : M.get K = some v)
    (hK2 : '}' ∉ K) (ha : '{' ∉ a) :
    ∃ r, ApplyStamping b M = some r ∧
      ApplyStamping (a ++ ['{'] ++ K ++ ['}'] ++ b) M = some (a ++ v ++ r) := by
  obtain ⟨r, hr1, hr2⟩ := ApplyStamping_run M b
  refine ⟨r, hr1, ?_⟩
  have e : a ++ ['{'] ++ K ++ ['}'] ++ b = a ++ '{' :: (K ++ '}' :: b) := by simp
  rw [e]
  have h1 : Index (a ++ '{' :: (K ++ '}' :: b)) ['{'] = some a.length := Index_char_append _ _ _ ha
  have h2 : Index ((a ++ '{' :: (K ++ '}' :: b)).drop (a.length + 1)) ['}'] = some K.length := by
    rw [drop_append_cons]; exact Index_char_append _ _ _ hK2
  obtain ⟨n', hn'⟩ := stampLoop_tag M (a ++ '{' :: (K ++ '}' :: b)).length _ [] 0 _ _ h1 h2
  rw [drop_append_cons, drop_append_cons, take_append_cons, take_append_cons] at hn'
  have ht : tagText M K = v := by simp [tagText, hK]
  rw [ht] at hn'
  obtain ⟨n2, hn2⟩ := hr2 (a ++ '{' :: (K ++ '}' :: b)).length ([] ++ a ++ v) n' (by simp; omega)
  rw [hn2] at hn'
  exact ApplyStampingFuel_of_loop M _ _ _ n2 (by simpa using hn')

/-- C1: for a key `K` of the stamp mapping that contains no `}` and a text `a` that contains
no `{`, `ApplyStamping(a + "{" + K + "}" + b, M)` is `a + M[K] + ApplyStamping(b, M)`; when `b`
contains no `{` it is `a + M[K] + b`; the inserted value is not scanned again: with
`M = {A -> "{B}", B -> "x"}` the input `{A}` gives `{B}`. -/
theorem C1_known_tag_replaced (M : GoMap) (K v a b : Str) (hK : M.get K = some v)
    (hK2 : '}' ∉ K) (ha : '{' ∉ a) :
    (∃ r, ApplyStamping b M = some r ∧
      ApplyStamping (a ++ ['{'] ++ K ++ ['}'] ++ b) M = some (a ++ v ++ r)) ∧
    ('{' ∉ b → ApplyStamping (a ++ ['{'] ++ K ++ ['}'] ++ b) M = some (a ++ v ++ b)) ∧
    ApplyStamping "{A}".toList exampleStamps = some "{B}".toList := by
  refine ⟨ApplyStamping_known M K v a b hK hK2 ha, ?_, by decide⟩
  intro hb
  obtain ⟨r, hr1, hr2⟩ := ApplyStamping_known M K v a b hK hK2 ha
  have : ApplyStamping b M = some b :=
    ApplyStampingFuel_of_loop M _ b b _ (by
      have := stampLoop_noStart M b.length b [] 0 (Index_char_none _ _ hb)
      simpa using this)
  rw [this] at hr1
  simp only [Option.some.injEq] at hr1
  subst hr1
  exact hr2

theorem C1_known_tag_replaced_witness :
    (exampleStamps.get "A".toList = some "{B}".toList ∧ '}' ∉ "A".toList ∧ '{' ∉ "a".toList) ∧
    ((∃ r, ApplyStamping "b{B}".toList exampleStamps = some r ∧
      ApplyStamping ("a".toList ++ ['{'] ++ "A".toList ++ ['}'] ++ "b{B}".toList) exampleStamps
        = some ("a".toList ++ "{B}".toList ++ r)) ∧
    ('{' ∉ "b{B}".toList →
      ApplyStamping ("a".toList ++ ['{'] ++ "A".toList ++ ['}'] ++ "b{B}".toList) exampleStamps
        = some ("a".toList ++ "{B}".toList ++ "b{B}".toList)) ∧
    ApplyStamping "{A}".toList exampleStamps = some "{B}".toList) :=
  ⟨by decide, C1_known_tag_replaced exampleStamps "A".toList "{B}".toList "a".toList "b{B}".toList
    (by decide) (by decide) (by decide)⟩

theorem stampLoop_unknown (M : GoMap) :
    ∀ (fuel : Nat) (s w : Str) (nn : Int), s.length < fuel →
      (∀ K, M.get K ≠ none → ¬ (['{'] ++ K ++ ['}']) <:+: s) →
      ∃ n', executeLoop builderWriter ['{'] ['}'] (stampTag M) fuel s w nn
        = some (w ++ s, n', none) := by
  intro fuel
  induction fuel with
  | zero => intro s w nn h; omega
  | succ k ih =>
    intro s w nn hlen H
    cases h1 : Index s ['{'] with
    | none => exact ⟨_, stampLoop_noStart M k s w nn h1⟩
    | some n =>
      obtain ⟨-, hs⟩ := Index_char_some _ _ _ h1
      cases h2 : Index (s.drop (n + 1)) ['}'] with
      | none =>
        obtain ⟨n', hn'⟩ := stampLoop_noEnd M k s w nn n h1 h2
        refine ⟨n', ?_⟩
        rw [hn']
        have : w ++ s.take n ++ ['{'] ++ s.drop (n + 1) = w ++ s := by
          conv_rhs => rw [hs]
          simp
        rw [this]
      | some m =>
        obtain ⟨-, hs1⟩ := Index_char_some _ _ _ h2
        obtain ⟨n', hn'⟩ := stampLoop_tag M k s w nn n m h1 h2
        have hsplit : s = s.take n ++ (['{'] ++ (s.drop (n + 1)).take m ++ ['}'])
            ++ (s.drop (n + 1)).drop (m + 1) := by
          conv_lhs => rw [hs, hs1]
          simp
        have hget : M.get ((s.drop (n + 1)).take m) = none := by
          by_contra hc
          exact H _ hc ⟨s.take n, (s.drop (n + 1)).drop (m + 1), hsplit.symm⟩
        have ht : tagText M ((s.drop (n + 1)).take m) = ['{'] ++ (s.drop (n + 1)).take m ++ ['}'] := by
          simp [tagText, hget]
        have hlen2 : ((s.drop (n + 1)).drop (m + 1)).length < k := by
          have b1 := Index_bound _ _ _ h1
          have b2 := Index_bound _ _ _ h2
          simp only [List.length_drop, List.length_singleton] at b1 b2 ⊢; omega
        have H2 : ∀ K, M.get K ≠ none → ¬ (['{'] ++ K ++ ['}']) <:+: (s.drop (n + 1)).drop (m + 1) := by
          intro K hK hin
          apply H K hK
          exact hin.trans ((List.drop_suffix _ _).trans (List.drop_suffix _ _)).isInfix
        obtain ⟨n2, hn2⟩ := ih ((s.drop (n + 1)).drop (m + 1))
          (w ++ s.take n ++ tagText M ((s.drop (n + 1)).take m)) n' hlen2 H2
        refine ⟨n2, ?_⟩
        rw [hn', hn2, ht]
        have : w ++ s.take n ++ (['{'] ++ (s.drop (n + 1)).take m ++ ['}'])
            ++ (s.drop (n + 1)).drop (m + 1) = w ++ s := by
          conv_rhs => rw [hsplit]
          simp
        rw [this]

theorem ApplyStamping_unknown (T : Str) (M : GoMap)
    (H : ∀ K, M.get K ≠ none → ¬ (['{'] ++ K ++ ['}']) <:+: T) :
    ApplyStamping T M = some T := by
  obtain ⟨n', hn'⟩ := stampLoop_unknown M (T.length + 1) T [] 0 (Nat.lt_succ_self _) H
  exact ApplyStampingFuel_of_loop M _ T T n' (by simpa using hn')

/-- C2: a text that contains no `{K}` with `K` a key of the stamp mapping is returned unchanged
by `ApplyStamping`; so is every text when the mapping is empty, and every text without `{`. -/
theorem C2_unknown_tags_unchanged (T : Str) (M : GoMap) :
    ((∀ K, M.get K ≠ none → ¬ (['{'] ++ K ++ ['}']) <:+: T) → ApplyStamping T M = some T) ∧
    ApplyStamping T GoMap.empty = some T ∧
    ('{' ∉ T → ApplyStamping T M = some T) := by
  refine ⟨ApplyStamping_unknown T M, ?_, ?_⟩
  · apply ApplyStamping_unknown
    intro K hK
    exact absurd rfl hK
  · intro hT
    apply ApplyStamping_unknown
    intro K _ hin
    apply hT
    apply hin.subset
    simp

theorem C2_unknown_tags_unchanged_witness :
    ApplyStamping "a{UNKNOWN}b".toList oneStamp = some "a{UNKNOWN}b".toList :=
  (C2_unknown_tags_unchanged "a{UNKNOWN}b".toList oneStamp).1 (by
    intro K hK
    have hk : K = "K".toList := by
      by_contra hne
      apply hK
      have : ¬ "K".toList = K := fun e => hne e.symm
      simp only [oneStamp, GoMap.get, lookupEntries, this, if_false]
    subst hk
    decide)

/-- C3: an unterminated placeholder is copied verbatim: for `a` without `{` and `r` without
`}`, `ApplyStamping(a + "{" + r, M)` returns `a + "{" + r`, also when `r` is a key of `M`. -/
theorem C3_unterminated_copied (M : GoMap) (a r : Str) (ha : '{' ∉ a) (hr : '}' ∉ r) :
    ApplyStamping (a ++ ['{'] ++ r) M = some (a ++ ['{'] ++ r) := by
  have e : a ++ ['{'] ++ r = a ++ '{' :: r := by simp
  rw [e]
  have h1 : Index (a ++ '{' :: r) ['{'] = some a.length := Index_char_append _ _ _ ha
  have h2 : Index ((a ++ '{' :: r).drop (a.length + 1)) ['}'] = none := by
    rw [drop_append_cons]; exact Index_char_none _ _ hr
  obtain ⟨n', hn'⟩ := stampLoop_noEnd M (a ++ '{' :: r).length _ [] 0 _ h1 h2
  rw [drop_append_cons, take_append_cons] at hn'
  exact ApplyStampingFuel_of_loop M _ _ _ n' (by simpa using hn')

theorem C3_unterminated_copied_witness :
    ('{' ∉ "a".toList ∧ '}' ∉ "K".toList ∧ oneStamp.get "K".toList = some "v".toList) ∧
    ApplyStamping ("a".toList ++ ['{'] ++ "K".toList) oneStamp
      = some ("a".toList ++ ['{'] ++ "K".toList) :=
  ⟨by decide, C3_unterminated_copied oneStamp "a".toList "K".toList (by decide) (by decide)⟩

/-! ## LoadStamps -/

theorem lookupEntries_setEntries (k v k' : Str) (l : List (Str × Str)) :
    lookupEntries k' (setEntries k v l) = if k = k' then some v else lookupEntries k' l := by
  induction l with
  | nil => simp [setEntries, lookupEntries]
  | cons p rest ih =>
    obtain ⟨a, b⟩ := p
    by_cases h : a = k
    · subst h
      by_cases h2 : a = k' <;> simp [setEntries, lookupEntries, h2]
    · by_cases h2 : a = k'
      · subst h2
        have : ¬ k = a := fun e => h e.symm
        simp [setEntries, lookupEntries, h, this]
      · simp [setEntries, lookupEntries, h, h2, ih]

theorem GoMap.get_set (m : GoMap) (k v k' : Str) :
    (m.set k v).get k' = if k = k' then some v else m.get k' :=
  lookupEntries_setEntries k v k' m.entries

theorem GoMap.get_empty (k : Str) : GoMap.empty.get k = none := rfl

theorem take_of_split (l a r : Str) (c : Char) (h : l = a ++ c :: r) : l.take a.length = a := by
  subst h; exact take_append_cons a r c

theorem drop_of_split (l a r : Str) (c : Char) (h : l = a ++ c :: r) :
    l.drop (a.length + 1) = r := by
  subst h; exact drop_append_cons a r c

theorem Index_of_split (l a r : Str) (c : Char) (h : l = a ++ c :: r) (hc : c ∉ a) :
    Index l [c] = some a.length := by
  subst h; exact Index_char_append c a r hc

theorem SplitN2_char (c : Char) (l : Str) :
    SplitN2 l [c] =
      if c ∈ l then [l.takeWhile (· ≠ c), (l.dropWhile (· ≠ c)).drop 1] else [l] := by
  by_cases h : c ∈ l
  · have hsplit : l = l.takeWhile (· ≠ c) ++ c :: (l.dropWhile (· ≠ c)).drop 1 := by
      induction l with
      | nil => simp at h
      | cons d t ih =>
        by_cases hd : d = c
        · subst hd; simp
        · have ht : c ∈ t := by
            rcases List.mem_cons.mp h with e | e
            · exact absurd e.symm hd
            · exact e
          simp only [ne_eq, hd, not_false_eq_true, decide_True, List.takeWhile_cons_of_pos,
            List.dropWhile_cons_of_pos, List.cons_append]
          congr 1
          exact ih ht
    have hnot : c ∉ l.takeWhile (· ≠ c) := by
      intro hm
      have := List.mem_takeWhile_imp hm
      simp at this
    simp only [SplitN2, Index_of_split l _ _ c hsplit hnot, h, if_true, List.length_singleton,
      take_of_split l _ _ c hsplit, drop_of_split l _ _ c hsplit]
  · simp [SplitN2, Index_char_none c l h, h]

theorem find?_singleton (p : Str → Bool) (a : Str) :
    [a].find? p = if p a then some a else none := by
  cases h : p a <;> simp [List.find?, h]

theorem lastBinding_cons (line : Str) (rest : List Str) (k : Str) :
    lastBinding (line :: rest) k =
      match lastBinding rest k with
      | some v => some v
      | none => if ' ' ∈ line ∧ lineKey line = k then some (lineValue line) else none := by
  unfold lastBinding
  rw [List.reverse_cons, List.find?_append, find?_singleton]
  cases h : rest.reverse.find? (fun l => decide (' ' ∈ l ∧ lineKey l = k)) with
  | some l => rfl
  | none =>
    by_cases hc : ' ' ∈ line ∧ lineKey line = k
    · simp only [hc, and_self, decide_True, if_true, Option.none_or, Option.map_some',
        Option.map_none']
    · simp only [hc, decide_False, Bool.false_eq_true, if_false, Option.none_or, Option.map_none']

theorem scanStamps_get (k : Str) : ∀ (lines : List Str) (m : GoMap),
    (scanStamps m lines).get k =
      match lastBinding lines k with
      | some v => some v
      | none => m.get k := by
  intro lines
  induction lines with
  | nil => intro m; simp [scanStamps, lastBinding]
  | cons line rest ih =>
    intro m
    rw [lastBinding_cons]
    simp only [scanStamps, SplitN2_char, lineKey, lineValue]
    by_cases hs : ' ' ∈ line
    · simp only [hs, if_true, List.length_cons, List.length_nil, true_and]
      rw [if_neg (by omega), ih]
      cases lastBinding rest k with
      | some v => rfl
      | none =>
        simp only [List.getD_cons_zero, List.getD_cons_succ, GoMap.get_set]
        split <;> rfl
    · simp only [hs, if_false, List.length_singleton, false_and]
      rw [if_pos (by omega), ih]
      cases lastBinding rest k <;> rfl

theorem LoadStamps_two (fs : FileSystem) (A B ca cb : Str) (hA : A ≠ []) (hB : B ≠ [])
    (hfa : fs A = some ca) (hfb : fs B = some cb) :
    LoadStamps fs A B
      = some (scanStamps (scanStamps GoMap.empty (scanLines ca)) (scanLines cb)) := by
  have ha : ¬ A.length = 0 := fun h => hA (List.length_eq_zero.mp h)
  have hb : ¬ B.length = 0 := fun h => hB (List.length_eq_zero.mp h)
  simp only [LoadStamps, loadStampFiles, ha, hb, if_false, hfa, hfb]

theorem LoadStamps_first (fs : FileSystem) (p content : Str) (hp : p ≠ [])
    (hf : fs p = some content) :
    LoadStamps fs p [] = some (scanStamps GoMap.empty (scanLines content)) := by
  have ha : ¬ p.length = 0 := fun h => hp (List.length_eq_zero.mp h)
  simp only [LoadStamps, loadStampFiles, ha, if_false, hf, List.length_nil, if_true]

theorem LoadStamps_second (fs : FileSystem) (p content : Str) (hp : p ≠ [])
    (hf : fs p = some content) :
    LoadStamps fs [] p = some (scanStamps GoMap.empty (scanLines content)) := by
  have ha : ¬ p.length = 0 := fun h => hp (List.length_eq_zero.mp h)
  simp only [LoadStamps, loadStampFiles, ha, if_false, hf, List.length_nil, if_true]

/-! ## The merge in main -/

theorem lookupEntries_eq_some (k v : Str) : ∀ (l : List (Str × Str)), (l.map Prod.fst).Nodup →
    (lookupEntries k l = some v ↔ (k, v) ∈ l) := by
  intro l
  induction l with
  | nil => intro _; simp [lookupEntries]
  | cons p rest ih =>
    obtain ⟨a, b⟩ := p
    intro hnd
    simp only [List.map_cons, List.nodup_cons] at hnd
    by_cases h : a = k
    · subst h
      simp only [lookupEntries, if_true, Option.some.injEq, List.mem_cons, Prod.mk.injEq,
        true_and]
      constructor
      · intro e; exact Or.inl e.symm
      · rintro (e | e)
        · exact e.symm
        · exact absurd (List.mem_map_of_mem Prod.fst e) hnd.1
    · have h' : ¬ k = a := fun e => h e.symm
      simp only [lookupEntries, h, if_false, List.mem_cons, Prod.mk.injEq, h', false_and,
        false_or]
      exact ih hnd.2

theorem lookupEntries_perm (k : Str) (l l' : List (Str × Str)) (hp : l.Perm l')
    (hnd : (l'.map Prod.fst).Nodup) : lookupEntries k l = lookupEntries k l' := by
  have hnd2 : (l.map Prod.fst).Nodup := (hp.map Prod.fst).nodup_iff.mpr hnd
  cases h : lookupEntries k l' with
  | some v =>
    rw [lookupEntries_eq_some k v l hnd2]
    exact hp.mem_iff.mpr ((lookupEntries_eq_some k v l' hnd).mp h)
  | none =>
    cases h2 : lookupEntries k l with
    | none => rfl
    | some v =>
      have := (lookupEntries_eq_some k v l' hnd).mpr
        (hp.mem_iff.mp ((lookupEntries_eq_some k v l hnd2).mp h2))
      rw [h] at this
      exact absurd this (by simp)

theorem lookupEntries_isSome (k : Str) : ∀ (l : List (Str × Str)),
    (lookupEntries k l ≠ none ↔ k ∈ l.map Prod.fst) := by
  intro l
  induction l with
  | nil => simp [lookupEntries]
  | cons p rest ih =>
    obtain ⟨a, b⟩ := p
    by_cases h : a = k
    · simp [lookupEntries, h]
    · have h' : ¬ k = a := fun e => h e.symm
      simp only [lookupEntries, h, if_false, List.map_cons, List.mem_cons, h', false_or]
      exact ih

theorem GoMap.mem_keys (m : GoMap) (k : Str) : k ∈ m.keys ↔ m.get k ≠ none :=
  (lookupEntries_isSome k m.entries).symm

theorem mergeStamps_get (k : Str) : ∀ (order : List (Str × Str)) (stamps : GoMap),
    (order.map Prod.fst).Nodup →
    (mergeStamps stamps order).get k =
      match lookupEntries k order with
      | some v => some v
      | none => stamps.get k := by
  intro order
  induction order with
  | nil => intro stamps _; rfl
  | cons p rest ih =>
    obtain ⟨a, b⟩ := p
    intro stamps hnd
    simp only [List.map_cons, List.nodup_cons] at hnd
    have hstep : mergeStamps stamps ((a, b) :: rest) = mergeStamps (stamps.set a b) rest := rfl
    rw [hstep, ih _ hnd.2]
    by_cases h : a = k
    · subst h
      have : lookupEntries a rest = none := by
        by_contra hc
        exact hnd.1 ((lookupEntries_isSome a rest).mp hc)
      simp [this, lookupEntries, GoMap.get_set]
    · simp only [lookupEntries, h, if_false, GoMap.get_set]

/-- C6: in the mapping that `main` merges from the stamp mapping `S` and the image mapping `I`,
in whatever order `range` delivers the entries of `I`, every key of `I` has its value in `I`,
also when `S` binds it differently, every other key of `S` keeps its value in `S`, and the keys
are those of `S` together with those of `I`. -/
theorem C6_image_entries_override (S I : GoMap) (order : List (Str × Str))
    (horder : order.Perm I.entries) :
    (∀ k v, I.get k = some v → (mergeStamps S order).get k = some v) ∧
    (∀ k, I.get k = none → (mergeStamps S order).get k = S.get k) ∧
    (∀ k, k ∈ (mergeStamps S order).keys ↔ k ∈ S.keys ∨ k ∈ I.keys) := by
  have hnd : (order.map Prod.fst).Nodup := (horder.map Prod.fst).nodup_iff.mpr I.nodup
  have hget : ∀ k, (mergeStamps S order).get k =
      match I.get k with
      | some v => some v
      | none => S.get k := by
    intro k
    rw [mergeStamps_get k order S hnd, lookupEntries_perm k order I.entries horder I.nodup]
    rfl
  refine ⟨?_, ?_, ?_⟩
  · intro k v h; rw [hget, h]
  · intro k h; rw [hget, h]
  · intro k
    rw [GoMap.mem_keys, GoMap.mem_keys, GoMap.mem_keys, hget]
    cases h : I.get k <;> simp

theorem C6_image_entries_override_witness :
    (mergeStamps stampsAB imagesBC.entries.reverse).get "B".toList = some "3".toList ∧
    (mergeStamps stampsAB imagesBC.entries.reverse).get "A".toList = some "1".toList ∧
    ("C".toList ∈ (mergeStamps stampsAB imagesBC.entries.reverse).keys ↔
      "C".toList ∈ stampsAB.keys ∨ "C".toList ∈ imagesBC.keys) :=
  have h := C6_image_entries_override stampsAB imagesBC imagesBC.entries.reverse
    (List.reverse_perm _)
  ⟨h.1 _ _ (by decide), (h.2.1 "A".toList (by decide)).trans (by decide), h.2.2 _⟩

/-! ## LoadImageStamps -/

theorem registerImage_slash (ws rest R P D : Str) (acc : GoMap) :
    registerImage ws acc ⟨['@', '/', '/'] ++ rest, R, P, D⟩ =
      (((acc.set (['@', '/', '/'] ++ rest) (R ++ ['/'] ++ P ++ ['@'] ++ D)).set
          (['@'] ++ ws ++ (['/', '/'] ++ rest)) (R ++ ['/'] ++ P ++ ['@'] ++ D)).set
          (['@'] ++ ws ++ (['/', '/'] ++ rest)) (R ++ ['/'] ++ P ++ ['@'] ++ D)).set
          (['@', '@'] ++ (['/', '/'] ++ rest)) (R ++ ['/'] ++ P ++ ['@'] ++ D) := by
  simp [registerImage, HasPrefix, Replace1, Index]

theorem LoadImageStamps_single (fs : FileSystem) (unmarshalPaths : Str → List Str)
    (applyReadManifest : Str → ImageManifest) (imageManifest ws content p c : Str)
    (him : imageManifest ≠ []) (hfs : fs imageManifest = some content)
    (hpaths : unmarshalPaths content = [p]) (hp : fs p = some c) :
    LoadImageStamps fs unmarshalPaths imageManifest ws applyReadManifest
      = some (registerImage ws GoMap.empty (applyReadManifest c)) := by
  have h0 : ¬ imageManifest.length = 0 := fun h => him (List.length_eq_zero.mp h)
  simp only [LoadImageStamps, h0, if_false, hfs, hpaths, loadImages, hp]

theorem onlyUrl_set (label url k : Str) (m : GoMap) (h : onlyUrl label url m) :
    onlyUrl label url (m.set k url) := by
  refine ⟨?_, ?_⟩
  · rw [GoMap.get_set]
    split
    · rfl
    · exact h.1
  · intro k' v hv
    rw [GoMap.get_set] at hv
    split at hv
    · exact (Option.some.inj hv).symm
    · exact h.2 k' v hv

theorem onlyUrl_first (label url : Str) : onlyUrl label url (GoMap.empty.set label url) := by
  refine ⟨?_, ?_⟩
  · simp [GoMap.get_set]
  · intro k v hv
    rw [GoMap.get_set] at hv
    split at hv
    · exact (Option.some.inj hv).symm
    · rw [GoMap.get_empty] at hv
      exact absurd hv (by simp)

theorem registerImage_onlyUrl (ws : Str) (d : ImageManifest) :
    onlyUrl d.Label (d.Registry ++ ['/'] ++ d.Repository ++ ['@'] ++ d.Digest)
      (registerImage ws GoMap.empty d) := by
  have h0 := onlyUrl_first d.Label (d.Registry ++ ['/'] ++ d.Repository ++ ['@'] ++ d.Digest)
  unfold registerImage
  simp only []
  split
  · split <;> split <;> split <;>
      repeat (first | exact h0 | apply onlyUrl_set)
  · exact h0

/-- C8: for a manifest that lists a single descriptor, whatever its label and the workspace
name, `LoadImageStamps` returns a mapping that has the label of the descriptor as a key and in
which every entry has the value `Registry/Repository@Digest` of the descriptor. -/
theorem C8_single_descriptor_one_url (fs : FileSystem) (unmarshalPaths : Str → List Str)
    (applyReadManifest : Str → ImageManifest) (imageManifest ws content p c : Str)
    (d : ImageManifest)
    (him : imageManifest ≠ []) (hfs : fs imageManifest = some content)
    (hpaths : unmarshalPaths content = [p]) (hp : fs p = some c)
    (hd : applyReadManifest c = d) :
    ∃ m, LoadImageStamps fs unmarshalPaths imageManifest ws applyReadManifest = some m ∧
      d.Label ∈ m.keys ∧
      m.get d.Label = some (d.Registry ++ ['/'] ++ d.Repository ++ ['@'] ++ d.Digest) ∧
      ∀ k v, m.get k = some v → v = d.Registry ++ ['/'] ++ d.Repository ++ ['@'] ++ d.Digest := by
  refine ⟨_, LoadImageStamps_single fs unmarshalPaths applyReadManifest imageManifest ws
    content p c him hfs hpaths hp, ?_⟩
  rw [hd]
  have h := registerImage_onlyUrl ws d
  refine ⟨?_, h.1, h.2⟩
  rw [GoMap.mem_keys, h.1]
  simp

theorem C8_single_descriptor_one_url_witness :
    ∃ m, LoadImageStamps imageFS imagePaths "images.json".toList "ws".toList imageReader = some m ∧
      "@//pkg:img".toList ∈ m.keys ∧
      m.get "@//pkg:img".toList = some "reg.io/repo/img@sha256:ab".toList ∧
      ∀ k v, m.get k = some v → v = "reg.io/repo/img@sha256:ab".toList :=
  C8_single_descriptor_one_url imageFS imagePaths imageReader "images.json".toList "ws".toList
    "[\"img.json\"]".toList "img.json".toList "pkg:img".toList
    ⟨"@//pkg:img".toList, "reg.io".toList, "repo/img".toList, "sha256:ab".toList⟩
    (by decide) (by decide) (by decide) (by decide) rfl

/-! ## Package regexp -/

theorem starK_sound (p : Char → Bool) (k : Str → Option MatchResult) :
    ∀ (s : Str) (r : MatchResult), starK p k s = some r → ∃ s', s' <:+ s ∧ k s' = some r := by
  intro s
  induction s with
  | nil => intro r h; exact ⟨[], List.suffix_refl _, h⟩
  | cons c t ih =>
    intro r h
    simp only [starK] at h
    split at h
    · cases h2 : starK p k t with
      | some r' =>
        rw [h2] at h
        simp only [Option.some.injEq] at h
        subst h
        obtain ⟨s', hs', hk⟩ := ih r' h2
        exact ⟨s', hs'.trans (List.suffix_cons c t), hk⟩
      | none =>
        rw [h2] at h
        exact ⟨c :: t, List.suffix_refl _, h⟩
    · exact ⟨c :: t, List.suffix_refl _, h⟩

theorem starK_complete (p : Char → Bool) (k : Str → Option MatchResult) (w : Str)
    (hk : k w ≠ none) : ∀ (u : Str), (∀ c ∈ u, p c = true) → starK p k (u ++ w) ≠ none := by
  have base : starK p k w ≠ none := by
    cases w with
    | nil => exact hk
    | cons c t =>
      simp only [starK]
      split
      · cases starK p k t with
        | some r => simp
        | none => exact hk
      · exact hk
  intro u
  induction u with
  | nil => intro _; exact base
  | cons c u ih =>
    intro hu
    have hc : p c = true := hu c (List.mem_cons_self _ _)
    have := ih (fun d hd => hu d (List.mem_cons_of_mem _ hd))
    simp only [List.cons_append, starK, hc, if_true]
    cases h : starK p k (u ++ w) with
    | some r => simp
    | none => exact absurd h this

theorem starK_shortest (p : Char → Bool) (k : Str → Option MatchResult) (w : Str)
    (hk : ∀ w', w' <:+ w → w' ≠ w → k w' = none) : starK p k w = k w := by
  cases w with
  | nil => rfl
  | cons c t =>
    simp only [starK]
    split
    · cases h : starK p k t with
      | none => rfl
      | some r =>
        obtain ⟨s', hs', hks⟩ := starK_sound p k t r h
        have hne : s' ≠ c :: t := by
          intro e
          have := hs'.length_le
          rw [e] at this
          simp at this
        rw [hk s' (hs'.trans (List.suffix_cons c t)) hne] at hks
        exact absurd hks (by simp)
    · rfl

theorem starK_prepend (p : Char → Bool) (k : Str → Option MatchResult) (w : Str)
    (r : MatchResult) (hw : starK p k w = some r) :
    ∀ (u : Str), (∀ c ∈ u, p c = true) → starK p k (u ++ w) = some r := by
  intro u
  induction u with
  | nil => intro _; exact hw
  | cons c u ih =>
    intro hu
    have hc : p c = true := hu c (List.mem_cons_self _ _)
    have h2 := ih (fun d hd => hu d (List.mem_cons_of_mem _ hd))
    show starK p k (c :: (u ++ w)) = some r
    rw [starK, if_pos hc, h2]

/-- Greedy choice: when `k` matches at `w` and at no later position, the repetition of `p` over
`u` followed by `k` matches `u ++ w` with the repetition taking all of `u`. -/
theorem starK_greedy (p : Char → Bool) (k : Str → Option MatchResult) (u w : Str)
    (r : MatchResult) (hu : ∀ c ∈ u, p c = true) (hw : k w = some r)
    (hk : ∀ w', w' <:+ w → w' ≠ w → k w' = none) : starK p k (u ++ w) = some r :=
  starK_prepend p k w r (by rw [starK_shortest p k w hk, hw]) u hu

theorem textBetween_append (a b : Str) : textBetween (a ++ b) b = a := by
  simp [textBetween]

theorem starK_all (p : Char → Bool) (caps : List (Nat × Str)) :
    ∀ (s : Str), (∀ c ∈ s, p c = true) → starK p (fun s' => some (s', caps)) s = some ([], caps) := by
  intro s
  induction s with
  | nil => intro _; rfl
  | cons c t ih =>
    intro h
    simp only [starK, h c (List.mem_cons_self _ _), if_true,
      ih (fun d hd => h d (List.mem_cons_of_mem _ hd))]

theorem anyChar_of_not_mem (s : Str) (h : '\n' ∉ s) : ∀ c ∈ s, anyChar c = true := by
  intro c hc
  simp only [anyChar, bne_iff_ne, ne_eq]
  intro e
  exact h (e ▸ hc)

/-- On a text without line feed that holds `{`, at least one character and `}`, the pattern
`.*{.+}.*` matches at the start, up to the end of the text. -/
theorem matchInsts_placeholder (x y z : Str) (hy : y ≠ [])
    (hline : '\n' ∉ x ++ '{' :: (y ++ '}' :: z)) :
    matchInsts placeholderPattern (x ++ '{' :: (y ++ '}' :: z)) [] = some ([], []) := by
  have hall := anyChar_of_not_mem _ hline
  -- every match ends at the end of the text
  have hend : ∀ s r, s <:+ x ++ '{' :: (y ++ '}' :: z) →
      matchInsts [Inst.char (· == '}'), Inst.star anyChar] s [] = some r → r = ([], []) := by
    intro s r hs h
    cases s with
    | nil => simp [matchInsts] at h
    | cons c t =>
      simp only [matchInsts] at h
      split at h
      · have ht : ∀ d ∈ t, anyChar d = true := fun d hd =>
          hall d (hs.subset (List.mem_cons_of_mem _ hd))
        rw [starK_all anyChar [] t ht] at h
        exact (Option.some.inj h).symm
      · exact absurd h (by simp)
  have hend2 : ∀ s r, s <:+ x ++ '{' :: (y ++ '}' :: z) →
      matchInsts [Inst.char (· == '{'), Inst.plus anyChar, Inst.char (· == '}'),
        Inst.star anyChar] s [] = some r → r = ([], []) := by
    intro s r hs h
    cases s with
    | nil => simp [matchInsts] at h
    | cons c t =>
      simp only [matchInsts] at h
      split at h
      · cases t with
        | nil => simp at h
        | cons d t' =>
          simp only at h
          split at h
          · obtain ⟨s', hs', hk⟩ := starK_sound _ _ _ _ h
            exact hend s' r (hs'.trans ((List.suffix_cons d t').trans
              ((List.suffix_cons c (d :: t')).trans hs))) hk
          · exact absurd h (by simp)
      · exact absurd h (by simp)
  -- there is a match
  obtain ⟨c, y', rfl⟩ := List.exists_cons_of_ne_nil hy
  have hz : ∀ d ∈ z, anyChar d = true := fun d hd => hall d (by simp [hd])
  have hy' : ∀ d ∈ y', anyChar d = true := fun d hd => hall d (by simp [hd])
  have hc : anyChar c = true := hall c (by simp)
  have hx : ∀ d ∈ x, anyChar d = true := fun d hd => hall d (by simp [hd])
  have h3 : matchInsts [Inst.char (· == '}'), Inst.star anyChar] ('}' :: z) [] ≠ none := by
    simp [matchInsts, starK_all anyChar [] z hz]
  have h2 : matchInsts [Inst.char (· == '{'), Inst.plus anyChar, Inst.char (· == '}'),
      Inst.star anyChar] ('{' :: (c :: y' ++ '}' :: z)) [] ≠ none := by
    simp only [matchInsts, beq_self_eq_true, if_true, List.cons_append, hc]
    exact starK_complete anyChar _ ('}' :: z) h3 y' hy'
  have h1 : matchInsts placeholderPattern (x ++ '{' :: (c :: y' ++ '}' :: z)) [] ≠ none := by
    simp only [placeholderPattern, matchInsts]
    exact starK_complete anyChar _ _ h2 x hx
  cases h : matchInsts placeholderPattern (x ++ '{' :: (c :: y' ++ '}' :: z)) [] with
  | none => exact absurd h h1
  | some r =>
    simp only [placeholderPattern, matchInsts] at h
    obtain ⟨s', hs', hk⟩ := starK_sound _ _ _ _ h
    rw [hend2 s' r hs' hk]

theorem FindAllString1_placeholder (x y z : Str) (hy : y ≠ [])
    (hline : '\n' ∉ x ++ '{' :: (y ++ '}' :: z)) :
    FindAllString1 placeholderPattern (x ++ '{' :: (y ++ '}' :: z))
      = [x ++ '{' :: (y ++ '}' :: z)] := by
  have h := matchInsts_placeholder x y z hy hline
  unfold FindAllString1
  cases hv : x ++ '{' :: (y ++ '}' :: z) with
  | nil => simp at hv
  | cons c t =>
    rw [hv] at h
    simp [findMatch, h, textBetween]

/-! ## SanitizeChartContent -/

theorem replacerReplace_clean : ∀ (s : Str) (c : Char), c ∈ replacerReplace s →
    c ≠ '{' ∧ c ≠ '}' ∧ c ≠ '_' := by
  intro s
  induction s with
  | nil => intro c h; simp [replacerReplace] at h
  | cons d t ih =>
    intro c h
    simp only [replacerReplace] at h
    split at h
    · exact ih c h
    · split at h
      · exact ih c h
      · split at h
        · rcases List.mem_cons.mp h with e | e
          · subst e; decide
          · exact ih c e
        · rcases List.mem_cons.mp h with e | e
          · subst e; exact ⟨by assumption, by assumption, by assumption⟩
          · exact ih c e

/-! ## WriteResultsMetadata -/

theorem tgzInsts_length (s : Str) (caps : List (Nat × Str)) (r : MatchResult)
    (h : matchInsts tgzInsts s caps = some r) : 4 ≤ s.length := by
  match s with
  | [] => simp [tgzInsts, matchInsts] at h
  | [_] => simp [tgzInsts, matchInsts] at h
  | [_, _] => simp [tgzInsts, matchInsts] at h
  | [_, _, _] => simp [tgzInsts, matchInsts] at h
  | _ :: _ :: _ :: _ :: _ => simp

theorem tgzInsts_suffix (s : Str) (caps : List (Nat × Str)) (hs : s <:+ ['.', 't', 'g', 'z'])
    (hne : s ≠ ['.', 't', 'g', 'z']) : matchInsts tgzInsts s caps = none := by
  cases h : matchInsts tgzInsts s caps with
  | none => rfl
  | some r =>
    have h4 := tgzInsts_length s caps r h
    have := List.IsSuffix.eq_of_length_le hs (by simpa using h4)
    exact absurd this hne

theorem tgzInsts_tgz (caps : List (Nat × Str)) :
    matchInsts tgzInsts ['.', 't', 'g', 'z'] caps = some ([], (5, ['.', 't', 'g', 'z']) :: caps) := by
  simp [tgzInsts, matchInsts]

theorem versionChar_tgz : ∀ c ∈ ['.', 't', 'g', 'z'], versionChar c = true := by decide

/-- On a version text followed by `.tgz`, `[\d\w\-\.]+\.tgz` takes the whole version text. -/
theorem plus_version_tgz (V1 : Str) (caps : List (Nat × Str)) (hne : V1 ≠ [])
    (hV1 : ∀ c ∈ V1, versionChar c = true) :
    matchInsts (Inst.plus versionChar :: tgzInsts) (V1 ++ ['.', 't', 'g', 'z']) caps
      = some ([], (5, ['.', 't', 'g', 'z']) :: caps) := by
  obtain ⟨c, t, rfl⟩ := List.exists_cons_of_ne_nil hne
  have hc : versionChar c = true := hV1 c (List.mem_cons_self _ _)
  simp only [List.cons_append, matchInsts, hc, if_true]
  exact starK_greedy versionChar _ t ['.', 't', 'g', 'z'] _
    (fun d hd => hV1 d (List.mem_cons_of_mem _ hd)) (tgzInsts_tgz caps)
    (fun w' hw' hne' => tgzInsts_suffix w' caps hw' hne')

/-- On `.tgz` alone, `[\d\w\-\.]+\.tgz` does not match. -/
theorem plus_version_tgz_only (caps : List (Nat × Str)) :
    matchInsts (Inst.plus versionChar :: tgzInsts) ['.', 't', 'g', 'z'] caps = none := by
  have hdot : versionChar '.' = true := by decide
  simp only [matchInsts, hdot, if_true]
  cases h : starK versionChar (fun s' => matchInsts tgzInsts s' caps) ['t', 'g', 'z'] with
  | none => rfl
  | some r =>
    obtain ⟨s', hs', hk⟩ := starK_sound _ _ _ _ h
    have h4 := tgzInsts_length s' caps r hk
    have := hs'.length_le
    simp at this
    omega

theorem suffix_append_cases (w' V t : Str) (h : w' <:+ V ++ t) :
    w' <:+ t ∨ ∃ a s, V = a ++ s ∧ s ≠ [] ∧ w' = s ++ t := by
  induction V with
  | nil => exact Or.inl (by simpa using h)
  | cons c V1 ih =>
    rw [List.cons_append, List.suffix_cons_iff] at h
    rcases h with h | h
    · exact Or.inr ⟨[], c :: V1, rfl, by simp, by simpa using h⟩
    · rcases ih h with h1 | ⟨a, s, hV, hs, hw⟩
      · exact Or.inl h1
      · exact Or.inr ⟨c :: a, s, by simp [hV], hs, hw⟩

/-- After the name, the rest of the pattern matches at no later position than the hyphen
before a version in which no hyphen is followed by a digit and a further character. -/
theorem versionInsts_later (V w' : Str) (caps : List (Nat × Str))
    (hno : ∀ a b c r, V = a ++ '-' :: b :: c :: r → digitChar b = false)
    (hw' : w' <:+ V ++ ['.', 't', 'g', 'z']) : matchInsts versionInsts w' caps = none := by
  rcases suffix_append_cases w' V _ hw' with h | ⟨a, s, hV, hs, rfl⟩
  · -- inside `.tgz` there is no hyphen
    simp only [List.suffix_cons_iff, List.suffix_nil] at h
    rcases h with h | h | h | h | h <;> subst h <;> simp [versionInsts, matchInsts]
  · match s, hs with
    | c :: s1, _ =>
      by_cases hc : c = '-'
      · subst hc
        match s1 with
        | [] => simp [versionInsts, matchInsts, digitChar]
        | [b] =>
          by_cases hb : digitChar b = true
          · have := plus_version_tgz_only ((4, [b] ++ ['.', 't', 'g', 'z']) ::
              (3, '-' :: ([b] ++ ['.', 't', 'g', 'z'])) :: caps)
            simpa [versionInsts, matchInsts, hb] using this
          · simp [versionInsts, matchInsts, hb]
        | b :: c :: r =>
          have hb := hno a b c r hV
          simp [versionInsts, matchInsts, hb]
      · simp [versionInsts, matchInsts, hc]

theorem matchInsts_package (N V : Str) (d : Char) (hN : N ≠ []) (hNl : '\n' ∉ N)
    (hd : digitChar d = true) (hV : V ≠ []) (hcls : ∀ c ∈ V, versionChar c = true)
    (hno : ∀ a b c r, d :: V = a ++ '-' :: b :: c :: r → digitChar b = false) :
    matchInsts packagePattern (N ++ '-' :: d :: (V ++ ['.', 't', 'g', 'z'])) []
      = some ([], [(5, ['.', 't', 'g', 'z']), (4, d :: (V ++ ['.', 't', 'g', 'z'])),
          (3, '-' :: d :: (V ++ ['.', 't', 'g', 'z'])),
          (2, N ++ '-' :: d :: (V ++ ['.', 't', 'g', 'z']))]) := by
  obtain ⟨n0, N', rfl⟩ := List.exists_cons_of_ne_nil hN
  have hn0 : anyChar n0 = true := anyChar_of_not_mem _ hNl n0 (List.mem_cons_self _ _)
  have hN' : ∀ c ∈ N', anyChar c = true := fun c hc =>
    anyChar_of_not_mem _ hNl c (List.mem_cons_of_mem _ hc)
  have hsplit : packagePattern = Inst.save 2 :: Inst.plus anyChar :: versionInsts := rfl
  rw [hsplit]
  simp only [List.cons_append, matchInsts, hn0, if_true]
  apply starK_greedy anyChar _ N' ('-' :: d :: (V ++ ['.', 't', 'g', 'z'])) _ hN'
  · have := plus_version_tgz V ((4, d :: (V ++ ['.', 't', 'g', 'z'])) ::
      (3, '-' :: d :: (V ++ ['.', 't', 'g', 'z'])) ::
      [(2, n0 :: (N' ++ '-' :: d :: (V ++ ['.', 't', 'g', 'z'])))]) hV hcls
    simpa [versionInsts, matchInsts, hd] using this
  · intro w' hw' hne
    rw [List.suffix_cons_iff] at hw'
    rcases hw' with h | h
    · exact absurd h hne
    · exact versionInsts_later (d :: V) w' _ hno (by simpa using h)


/-- No hyphen of the text is followed by a digit and a further character. -/
def hyphenDigitFree : Str → Bool
  | [] => true
  | c :: t =>
    (c != '-' ||
      match t with
      | b :: _ :: _ => !digitChar b
      | _ => true) && hyphenDigitFree t

theorem hyphenDigitFree_spec : ∀ (a s : Str) (b c : Char) (r : Str),
    hyphenDigitFree s = true → s = a ++ '-' :: b :: c :: r → digitChar b = false := by
  intro a
  induction a with
  | nil =>
    intro s b c r h e
    subst e
    simp only [List.nil_append, hyphenDigitFree, bne_self_eq_false, Bool.false_or,
      Bool.and_eq_true, Bool.not_eq_true'] at h
    exact h.1
  | cons x a ih =>
    intro s b c r h e
    subst e
    simp only [List.cons_append, hyphenDigitFree, Bool.and_eq_true] at h
    exact ih _ b c r h.2 rfl

/-- C10, as the code has it: for a non-empty name `N` without line feed and a version that
begins with a digit `d` and continues with at least one character, each a digit, an ASCII
letter, `_`, `-` or `.`, and in which no hyphen is followed by a digit and a further character,
the metadata that `WriteResultsMetadata` derives from `N-V.tgz` is `{name: N, version: V}`;
`mychart-1.2.3.tgz` gives `{name: "mychart", version: "1.2.3"}`. -/
theorem C10_metadata_from_file_name (N V : Str) (d : Char) (hN : N ≠ []) (hNl : '\n' ∉ N)
    (hd : digitChar d = true) (hV : V ≠ []) (hcls : ∀ c ∈ V, versionChar c = true)
    (hno : hyphenDigitFree (d :: V) = true) :
    WriteResultsMetadata (N ++ ['-'] ++ (d :: V) ++ ['.', 't', 'g', 'z']) = some ⟨N, d :: V⟩ ∧
    WriteResultsMetadata "mychart-1.2.3.tgz".toList
      = some ⟨"mychart".toList, "1.2.3".toList⟩ := by
  refine ⟨?_, by decide⟩
  have h := matchInsts_package N V d hN hNl hd hV hcls
    (fun a b c r e => hyphenDigitFree_spec a (d :: V) b c r hno e)
  have e : N ++ ['-'] ++ (d :: V) ++ ['.', 't', 'g', 'z']
      = N ++ '-' :: d :: (V ++ ['.', 't', 'g', 'z']) := by simp
  rw [e]
  obtain ⟨n0, N', rfl⟩ := List.exists_cons_of_ne_nil hN
  have g1 : textBetween (n0 :: N' ++ '-' :: d :: (V ++ ['.', 't', 'g', 'z']))
      ('-' :: d :: (V ++ ['.', 't', 'g', 'z'])) = n0 :: N' := textBetween_append _ _
  have g2 : textBetween (d :: (V ++ ['.', 't', 'g', 'z'])) ['.', 't', 'g', 'z'] = d :: V :=
    textBetween_append (d :: V) _
  rw [List.cons_append] at h g1
  simp only [WriteResultsMetadata, FindFirstSubmatch, List.cons_append, findMatch, h]
  simp [h, groupText, List.lookup, List.range, List.range.loop, g1, g2]

theorem C10_metadata_from_file_name_witness :
    WriteResultsMetadata ("my-chart".toList ++ ['-'] ++ ('1' :: ".2.3-rc1".toList)
        ++ ['.', 't', 'g', 'z'])
      = some ⟨"my-chart".toList, '1' :: ".2.3-rc1".toList⟩ ∧
    WriteResultsMetadata "mychart-1.2.3.tgz".toList
      = some ⟨"mychart".toList, "1.2.3".toList⟩ :=
  C10_metadata_from_file_name "my-chart".toList ".2.3-rc1".toList '1' (by decide) (by decide)
    (by decide) (by decide) (by decide) (by decide)

/-- C10 fails for a version with a hyphen before a digit: `mychart` and `1.2.3-10` are a name
and a version as the claim has them, and `mychart-1.2.3-10.tgz` gives the name `mychart-1.2.3`
and the version `10`.  No function of the file name can do what the claim says: the name `a`
with the version `1-2b` and the name `a-1` with the version `2b` give the same file name.  A
version of one digit and a name with a line feed fail too. -/
theorem C10_hyphen_digit_counterexample :
    ("mychart".toList ≠ [] ∧ digitChar '1' = true ∧
      ∀ c ∈ ".2.3-10".toList, digitChar c = true ∨ c = '-' ∨ c = '.') ∧
    WriteResultsMetadata ("mychart".toList ++ ['-'] ++ "1.2.3-10".toList ++ ['.', 't', 'g', 'z'])
      = some ⟨"mychart-1.2.3".toList, "10".toList⟩ ∧
    "a".toList ++ ['-'] ++ "1-2b".toList ++ ['.', 't', 'g', 'z']
      = "a-1".toList ++ ['-'] ++ "2b".toList ++ ['.', 't', 'g', 'z'] ∧
    WriteResultsMetadata ("x".toList ++ ['-'] ++ "1".toList ++ ['.', 't', 'g', 'z']) = none ∧
    WriteResultsMetadata ("a\nb".toList ++ ['-'] ++ "1.0".toList ++ ['.', 't', 'g', 'z'])
      = some ⟨"b".toList, "1.0".toList⟩ := by
  decide

/-! ## The lines of a status file -/

theorem dropCR_length (data : Str) : data.length ≤ (dropCR data).length + 1 := by
  unfold dropCR
  split
  · simp only [List.length_dropLast]; omega
  · omega

theorem textLinesFrom_current : ∀ (rest cur : Str), cur ≠ [] →
    ∃ l ∈ textLinesFrom cur rest, cur.length ≤ l.length + 1 := by
  intro rest
  induction rest with
  | nil =>
    intro cur hcur
    exact ⟨dropCR cur, by simp [textLinesFrom, hcur], dropCR_length cur⟩
  | cons c rest ih =>
    intro cur hcur
    by_cases hc : c = '\n'
    · exact ⟨dropCR cur, by simp [textLinesFrom, hc], dropCR_length cur⟩
    · obtain ⟨l, hl, hlen⟩ := ih (cur ++ [c]) (by simp)
      refine ⟨l, by simpa [textLinesFrom, hc] using hl, ?_⟩
      simp only [List.length_append, List.length_singleton] at hlen
      omega

theorem scanLinesFrom_eq_textLinesFrom : ∀ (rest cur : Str),
    (∀ l ∈ textLinesFrom cur rest, l.length + 1 < MaxScanTokenSize) →
    scanLinesFrom cur rest = textLinesFrom cur rest := by
  intro rest
  induction rest with
  | nil => intro cur _; rfl
  | cons c rest ih =>
    intro cur h
    by_cases hc : c = '\n'
    · simp only [textLinesFrom, hc, if_true, List.mem_cons, forall_eq_or_imp] at h
      simp only [scanLinesFrom, textLinesFrom, hc, if_true, ih [] h.2]
    · simp only [textLinesFrom, hc, if_false] at h
      obtain ⟨l, hl, hlen⟩ := textLinesFrom_current rest (cur ++ [c]) (by simp)
      have hb := h l hl
      simp only [List.length_append, List.length_singleton] at hlen
      have hlt : ¬ MaxScanTokenSize ≤ cur.length + 1 := by omega
      simp only [scanLinesFrom, textLinesFrom, hc, if_false, hlt, ih (cur ++ [c]) h]

/-- The scanner of `LoadStamps` delivers the lines of the file when each of them, with its
terminal `\r` if it has one, is shorter than `MaxScanTokenSize`. -/
theorem scanLines_eq_textLines (content : Str)
    (h : ∀ l ∈ textLines content, l.length + 1 < MaxScanTokenSize) :
    scanLines content = textLines content :=
  scanLinesFrom_eq_textLinesFrom content [] h

/-! ## FindGeneratedPackage -/

theorem FindGeneratedPackage_no_colon (stat : Str → Bool) (logging : Str) (h : ':' ∉ logging) :
    FindGeneratedPackage stat logging = ([], some "failed to find package".toList) := by
  simp only [FindGeneratedPackage, Contains, Index_char_none ':' logging h, Option.isSome_none,
    Bool.false_eq_true, if_false]

theorem FindGeneratedPackage_colon (stat : Str → Bool) (logging pre post : Str)
    (h : logging = pre ++ ':' :: post) (hpre : ':' ∉ pre) :
    FindGeneratedPackage stat logging =
      if stat (TrimSpace post) then (TrimSpace post, none)
      else ([], some "failed to find package".toList) := by
  simp only [FindGeneratedPackage, Contains, SplitN2, Index_of_split logging pre post ':' h hpre,
    Option.isSome_some, if_true, List.length_singleton, List.getD_cons_succ,
    List.getD_cons_zero, drop_of_split logging pre post ':' h]

theorem first_colon_split (logging : Str) (h : ':' ∈ logging) :
    ∃ pre post, logging = pre ++ ':' :: post ∧ ':' ∉ pre := by
  induction logging with
  | nil => simp at h
  | cons c t ih =>
    by_cases hc : c = ':'
    · exact ⟨[], t, by simp [hc], by simp⟩
    · have ht : ':' ∈ t := by
        rcases List.mem_cons.mp h with e | e
        · exact absurd e.symm hc
        · exact e
      obtain ⟨pre, post, hsplit, hpre⟩ := ih ht
      refine ⟨c :: pre, post, by simp [hsplit], ?_⟩
      simp only [List.mem_cons, not_or]
      exact ⟨fun e => hc e.symm, hpre⟩

/-- C11, as the code has it: when the output contains a colon and the text after the first
colon of the output, trimmed of surrounding white space, is a path that exists,
`FindGeneratedPackage` returns that path without error; the line
`Successfully packaged chart and saved it to: /tmp/out/mychart-1.2.3.tgz` with the file present
gives `/tmp/out/mychart-1.2.3.tgz`. -/
theorem C11_first_colon_of_output (stat : Str → Bool) (logging pre post : Str)
    (h : logging = pre ++ ':' :: post) (hpre : ':' ∉ pre) (hstat : stat (TrimSpace post) = true) :
    FindGeneratedPackage stat logging = (TrimSpace post, none) ∧
    FindGeneratedPackage packagePresent
        "Successfully packaged chart and saved it to: /tmp/out/mychart-1.2.3.tgz\n".toList
      = ("/tmp/out/mychart-1.2.3.tgz".toList, none) := by
  refine ⟨?_, by decide⟩
  rw [FindGeneratedPackage_colon stat logging pre post h hpre, if_pos hstat]

theorem C11_first_colon_of_output_witness :
    FindGeneratedPackage packagePresent
        ("Successfully packaged chart and saved it to".toList ++ ':' ::
          " /tmp/out/mychart-1.2.3.tgz\n".toList)
      = (TrimSpace " /tmp/out/mychart-1.2.3.tgz\n".toList, none) ∧
    FindGeneratedPackage packagePresent
        "Successfully packaged chart and saved it to: /tmp/out/mychart-1.2.3.tgz\n".toList
      = ("/tmp/out/mychart-1.2.3.tgz".toList, none) :=
  C11_first_colon_of_output packagePresent _ "Successfully packaged chart and saved it to".toList
    " /tmp/out/mychart-1.2.3.tgz\n".toList rfl (by decide) (by decide)

/-- C11 fails for an output of several lines: the second line of the output holds a colon and
the text after its first colon, trimmed, is a path that exists, yet `FindGeneratedPackage`
cuts the output at the colon of the first line and returns the error. -/
theorem C11_later_line_counterexample :
    "Successfully packaged chart and saved it to: /tmp/out/mychart-1.2.3.tgz".toList ∈
      textLines ("walk.go:74: found symbolic link in path\n" ++
        "Successfully packaged chart and saved it to: /tmp/out/mychart-1.2.3.tgz\n").toList ∧
    ':' ∈ "Successfully packaged chart and saved it to: /tmp/out/mychart-1.2.3.tgz".toList ∧
    packagePresent (TrimSpace (afterColon
      "Successfully packaged chart and saved it to: /tmp/out/mychart-1.2.3.tgz".toList)) = true ∧
    FindGeneratedPackage packagePresent ("walk.go:74: found symbolic link in path\n" ++
        "Successfully packaged chart and saved it to: /tmp/out/mychart-1.2.3.tgz\n").toList
      = ([], some "failed to find package".toList) := by
  decide

/-- C16, as the code has it: when `FindGeneratedPackage` returns without error, the returned
path exists and is the trimmed text after the first colon of the output; in every other case
it returns the empty path and the error `failed to find package`, so when the output contains
no colon and when the trimmed text after the first colon of the output is not a path that
exists. -/
theorem C16_success_only_with_existing_path (stat : Str → Bool) (logging : Str) :
    (∀ p, FindGeneratedPackage stat logging = (p, none) →
      stat p = true ∧ ∃ pre post, logging = pre ++ ':' :: post ∧ ':' ∉ pre ∧ p = TrimSpace post) ∧
    ((∃ p, FindGeneratedPackage stat logging = (p, none)) ∨
      FindGeneratedPackage stat logging = ([], some "failed to find package".toList)) ∧
    (':' ∉ logging →
      FindGeneratedPackage stat logging = ([], some "failed to find package".toList)) ∧
    (∀ pre post, logging = pre ++ ':' :: post → ':' ∉ pre → stat (TrimSpace post) = false →
      FindGeneratedPackage stat logging = ([], some "failed to find package".toList)) := by
  have hcolon : ∀ pre post, logging = pre ++ ':' :: post → ':' ∉ pre →
      stat (TrimSpace post) = false →
      FindGeneratedPackage stat logging = ([], some "failed to find package".toList) := by
    intro pre post h hpre hstat
    rw [FindGeneratedPackage_colon stat logging pre post h hpre, hstat]
    simp
  refine ⟨?_, ?_, FindGeneratedPackage_no_colon stat logging, hcolon⟩
  · intro p hp
    by_cases hc : ':' ∈ logging
    · obtain ⟨pre, post, h, hpre⟩ := first_colon_split logging hc
      rw [FindGeneratedPackage_colon stat logging pre post h hpre] at hp
      split at hp
      · rename_i hstat
        simp only [Prod.mk.injEq, and_true] at hp
        subst hp
        exact ⟨hstat, pre, post, h, hpre, rfl⟩
      · simp at hp
    · rw [FindGeneratedPackage_no_colon stat logging hc] at hp
      simp at hp
  · by_cases hc : ':' ∈ logging
    · obtain ⟨pre, post, h, hpre⟩ := first_colon_split logging hc
      cases hstat : stat (TrimSpace post) with
      | true =>
        left
        exact ⟨TrimSpace post, by
          rw [FindGeneratedPackage_colon stat logging pre post h hpre, if_pos hstat]⟩
      | false => exact Or.inr (hcolon pre post h hpre hstat)
    · exact Or.inr (FindGeneratedPackage_no_colon stat logging hc)

theorem C16_success_only_with_existing_path_witness :
    (packagePresent "/tmp/out/mychart-1.2.3.tgz".toList = true ∧
      ∃ pre post, "saved it to: /tmp/out/mychart-1.2.3.tgz\n".toList = pre ++ ':' :: post ∧
        ':' ∉ pre ∧ "/tmp/out/mychart-1.2.3.tgz".toList = TrimSpace post) ∧
    FindGeneratedPackage packagePresent "no colon here".toList
      = ([], some "failed to find package".toList) ∧
    FindGeneratedPackage packagePresent "saved it to: /tmp/other.tgz\n".toList
      = ([], some "failed to find package".toList) :=
  have h := C16_success_only_with_existing_path packagePresent
  ⟨(h "saved it to: /tmp/out/mychart-1.2.3.tgz\n".toList).1 _ (by decide),
    (h "no colon here".toList).2.2.1 (by decide),
    (h "saved it to: /tmp/other.tgz\n".toList).2.2.2 "saved it to".toList
      " /tmp/other.tgz\n".toList rfl (by decide) (by decide)⟩

/-- C16 fails where it speaks of the lines of the output: the one line with a colon of the
output `saved it to:`, `/tmp/out/mychart-1.2.3.tgz` has nothing after its colon, so no line
with a colon yields a path that exists, yet `FindGeneratedPackage` returns the path of the
second line without error. -/
theorem C16_no_line_yields_counterexample :
    (∀ line ∈ textLines "saved it to:\n/tmp/out/mychart-1.2.3.tgz\n".toList,
      ':' ∈ line → packagePresent (TrimSpace (afterColon line)) = false) ∧
    FindGeneratedPackage packagePresent "saved it to:\n/tmp/out/mychart-1.2.3.tgz\n".toList
      = ("/tmp/out/mychart-1.2.3.tgz".toList, none) := by
  decide

/-! ## The count that ExecuteFunc returns -/

theorem executeLoop_count {σ : Type} (wr : Writer σ) (output : σ → Str) (startTag endTag : Str)
    (f : TagFunc σ) (hwr : WritesAll wr output) (hf : CountsWritten output f) :
    ∀ (fuel : Nat) (s : Str) (w : σ) (nn : Int) (r : σ × Int × Option GoError),
      executeLoop wr startTag endTag f fuel s w nn = some r →
      r.2.2 = none ∧ ∃ out : Str, output r.1 = output w ++ out ∧ r.2.1 = nn + (out.length : Int) := by
  intro fuel
  induction fuel with
  | zero => intro s w nn r h; simp [executeLoop] at h
  | succ k ih =>
    intro s w nn r h
    rw [executeLoop] at h
    cases h1 : Index s startTag with
    | none =>
      simp only [h1, Option.some.injEq] at h
      subst h
      obtain ⟨ho, hn, he⟩ := hwr w s
      exact ⟨he, s, ho, by simp only [executeFinish, hn]⟩
    | some n =>
      simp only [h1] at h
      obtain ⟨ho1, hn1, he1⟩ := hwr w (s.take n)
      simp only [he1] at h
      cases h3 : Index (s.drop (n + startTag.length)) endTag with
      | none =>
        simp only [h3, Option.some.injEq] at h
        subst h
        obtain ⟨ho2, hn2, _⟩ := hwr (wr.WriteString w (s.take n)).1 startTag
        obtain ⟨ho3, hn3, he3⟩ := hwr (wr.WriteString (wr.WriteString w (s.take n)).1 startTag).1
          (s.drop (n + startTag.length))
        refine ⟨he3, s.take n ++ startTag ++ s.drop (n + startTag.length), ?_, ?_⟩
        · simp only [executeFinish, ho3, ho2, ho1, List.append_assoc]
        · simp only [executeFinish, hn3, hn2, hn1, List.length_append, Nat.cast_add]
          ring
      | some m =>
        simp only [h3] at h
        obtain ⟨out, ho2, hn2, he2⟩ := hf (wr.WriteString w (s.take n)).1
          ((s.drop (n + startTag.length)).take m)
        simp only [he2] at h
        obtain ⟨he, out', ho', hn'⟩ := ih _ _ _ _ h
        refine ⟨he, s.take n ++ out ++ out', ?_, ?_⟩
        · rw [ho', ho2, ho1]; simp only [List.append_assoc]
        · rw [hn', hn2, hn1]
          simp only [List.length_append, Nat.cast_add]
          ring

/-- C12: with a non-empty delimiter, a writer of which no write fails and a resolver that returns, without error, the
number of bytes it wrote, `ExecuteFunc` returns: it gives no error and the `int64` it returns
is the number of bytes the call appended to the writer, also for a template that ends in a
placeholder without end delimiter. -/
theorem C12_returned_count_is_bytes_written {σ : Type} (wr : Writer σ) (output : σ → Str)
    (f : TagFunc σ) (template startTag endTag : Str) (w : σ)
    (hne : startTag ≠ [] ∨ endTag ≠ [])
    (hwr : WritesAll wr output) (hf : CountsWritten output f) :
    (∃ r, ExecuteFunc (template.length + 1) template startTag endTag wr w f = some r ∧
      r.2.2 = none ∧ ∃ out : Str, output r.1 = output w ++ out ∧ r.2.1 = (out.length : Int)) ∧
    ExecuteFunc 3 "a<<x>>b<<y".toList "<<".toList ">>".toList builderWriter [] bracketTag
      = some ("a[x]b<<y".toList, 8, none) := by
  refine ⟨?_, by decide⟩
  obtain ⟨r, hr⟩ := executeLoop_terminates wr startTag endTag f hne
    (template.length + 1) template w 0 (Nat.lt_succ_self _)
  obtain ⟨he, out, ho, hn⟩ := executeLoop_count wr output startTag endTag f hwr hf _ _ _ _ _ hr
  exact ⟨r, hr, he, out, ho, by simpa using hn⟩

theorem C12_returned_count_is_bytes_written_witness :
    (∃ r, ExecuteFunc ("a<<x>>b<<y".toList.length + 1) "a<<x>>b<<y".toList "<<".toList
        ">>".toList builderWriter [] bracketTag = some r ∧
      r.2.2 = none ∧ ∃ out : Str, r.1 = [] ++ out ∧ r.2.1 = (out.length : Int)) ∧
    ExecuteFunc 3 "a<<x>>b<<y".toList "<<".toList ">>".toList builderWriter [] bracketTag
      = some ("a[x]b<<y".toList, 8, none) :=
  C12_returned_count_is_bytes_written builderWriter (fun sb => sb) bracketTag
    "a<<x>>b<<y".toList "<<".toList ">>".toList [] (Or.inl (by decide))
    (fun _ _ => ⟨rfl, rfl, rfl⟩) (fun _ tag => ⟨['['] ++ tag ++ [']'], rfl, rfl, rfl⟩)

/-! ## Empty stamp paths, further label spellings -/

/-- C13: an empty path argument is as good as no source: for a status file `B`,
`LoadStamps("", B)` and `LoadStamps(B, "")` both return the mapping scanned from `B` alone,
and `LoadStamps("", "")` returns the empty mapping; none of them fails. -/
theorem C13_empty_path_skipped (fs : FileSystem) (B content : Str) (hB : B ≠ [])
    (hf : fs B = some content) :
    LoadStamps fs [] B = some (scanStamps GoMap.empty (scanLines content)) ∧
    LoadStamps fs B [] = some (scanStamps GoMap.empty (scanLines content)) ∧
    LoadStamps fs [] [] = some GoMap.empty ∧
    (∀ k, (LoadStamps fs [] B).map (fun m => m.get k) = (LoadStamps fs B []).map (fun m => m.get k)) := by
  have h1 := LoadStamps_second fs B content hB hf
  have h2 := LoadStamps_first fs B content hB hf
  refine ⟨h1, h2, ?_, ?_⟩
  · simp only [LoadStamps, loadStampFiles, List.length_nil, if_true]
  · intro k; rw [h1, h2]

theorem C13_empty_path_skipped_witness :
    ((LoadStamps exampleFS [] "B".toList).map (fun m => m.entries)
      = some [("FOO".toList, "2".toList)]) ∧
    ((LoadStamps exampleFS "B".toList []).map (fun m => m.entries)
      = some [("FOO".toList, "2".toList)]) ∧
    LoadStamps exampleFS [] [] = some GoMap.empty :=
  have h := C13_empty_path_skipped exampleFS "B".toList "novalue\r\nFOO 2".toList
    (by decide) (by decide)
  ⟨by rw [h.1]; decide, by rw [h.2.1]; decide, h.2.2.1⟩

theorem registerImage_atat (ws rest R P D : Str) (acc : GoMap) :
    registerImage ws acc ⟨['@', '@', '/', '/'] ++ rest, R, P, D⟩ =
      (((acc.set (['@', '@', '/', '/'] ++ rest) (R ++ ['/'] ++ P ++ ['@'] ++ D)).set
          (['@', '@'] ++ ws ++ (['/', '/'] ++ rest)) (R ++ ['/'] ++ P ++ ['@'] ++ D)).set
          (['@'] ++ ws ++ (['/', '/'] ++ rest)) (R ++ ['/'] ++ P ++ ['@'] ++ D)).set
          (['@'] ++ (['/', '/'] ++ rest)) (R ++ ['/'] ++ P ++ ['@'] ++ D) := by
  simp [registerImage, HasPrefix, Replace1, Index]

theorem registerImage_main (ws rest R P D : Str) (acc : GoMap) :
    registerImage ws acc ⟨"@@_main//".toList ++ rest, R, P, D⟩ =
      (((acc.set ("@@_main//".toList ++ rest) (R ++ ['/'] ++ P ++ ['@'] ++ D)).set
          (['@', '@'] ++ ws ++ (['/', '/'] ++ rest)) (R ++ ['/'] ++ P ++ ['@'] ++ D)).set
          (['@'] ++ ws ++ (['/', '/'] ++ rest)) (R ++ ['/'] ++ P ++ ['@'] ++ D)).set
          (['@'] ++ (['/', '/'] ++ rest)) (R ++ ['/'] ++ P ++ ['@'] ++ D) := by
  simp [registerImage, HasPrefix, Replace1, Index]

/-- C14, what the code does: for a non-empty workspace name `ws`, the descriptor labelled
`@@//` + `rest` is registered under `@@` + `ws` + `//` + `rest`, and the descriptor labelled
`@//` + `rest` is not: its branch builds `absLabel` with one `@`, as it builds `localLabel`.
Every spelling registered for the label `@//` + `rest` is registered for `@@//` + `rest`. -/
theorem C14_slash_label_misses_spelling (ws rest R P D : Str) (hws : ws ≠ []) :
    (registerImage ws GoMap.empty ⟨['@', '@', '/', '/'] ++ rest, R, P, D⟩).get
        (['@', '@'] ++ ws ++ ['/', '/'] ++ rest) = some (R ++ ['/'] ++ P ++ ['@'] ++ D) ∧
    (registerImage ws GoMap.empty ⟨['@', '/', '/'] ++ rest, R, P, D⟩).get
        (['@', '@'] ++ ws ++ ['/', '/'] ++ rest) = none ∧
    (∀ k, k ∈ (registerImage ws GoMap.empty ⟨['@', '/', '/'] ++ rest, R, P, D⟩).keys →
      k ∈ (registerImage ws GoMap.empty ⟨['@', '@', '/', '/'] ++ rest, R, P, D⟩).keys) := by
  have hlen : 0 < ws.length := List.length_pos.mpr hws
  refine ⟨?_, ?_, ?_⟩
  · rw [registerImage_atat]
    simp [GoMap.get_set]
  · rw [registerImage_slash]
    have e1 : ¬ (['@', '@'] ++ (['/', '/'] ++ rest) = ['@', '@'] ++ ws ++ ['/', '/'] ++ rest) := by
      intro e
      have := congrArg List.length e
      simp only [List.length_append, List.length_cons, List.length_nil] at this
      omega
    have e2 : ¬ (['@'] ++ ws ++ (['/', '/'] ++ rest) = ['@', '@'] ++ ws ++ ['/', '/'] ++ rest) := by
      intro e
      have := congrArg List.length e
      simp only [List.length_append, List.length_cons, List.length_nil] at this
      omega
    have e3 : ¬ (['@', '/', '/'] ++ rest = ['@', '@'] ++ ws ++ ['/', '/'] ++ rest) := by
      intro e
      simp at e
    simp only [GoMap.get_set, e1, e2, e3, if_false, GoMap.get_empty]
  · intro k
    rw [GoMap.mem_keys, GoMap.mem_keys, registerImage_slash, registerImage_atat]
    simp only [GoMap.get_set, GoMap.get_empty]
    intro h
    by_cases k1 : ['@', '@'] ++ (['/', '/'] ++ rest) = k
    · subst k1; simp
    · by_cases k2 : ['@'] ++ ws ++ (['/', '/'] ++ rest) = k
      · subst k2; simp
      · by_cases k3 : ['@', '/', '/'] ++ rest = k
        · subst k3; simp
        · simp only [k1, k2, k3, if_false] at h
          exact absurd rfl h

theorem C14_slash_label_misses_spelling_witness :
    (registerImage "ws".toList GoMap.empty
        ⟨"@@//pkg:img".toList, "reg.io".toList, "repo/img".toList, "sha256:ab".toList⟩).get
        "@@ws//pkg:img".toList = some "reg.io/repo/img@sha256:ab".toList ∧
    (registerImage "ws".toList GoMap.empty
        ⟨"@//pkg:img".toList, "reg.io".toList, "repo/img".toList, "sha256:ab".toList⟩).get
        "@@ws//pkg:img".toList = none :=
  have h := C14_slash_label_misses_spelling "ws".toList "pkg:img".toList "reg.io".toList
    "repo/img".toList "sha256:ab".toList (by decide)
  ⟨h.1, h.2.1⟩

/-! ## SanitizeChartContent without placeholder -/

theorem starK_sound_prefix (p : Char → Bool) (k : Str → Option MatchResult) :
    ∀ (s : Str) (r : MatchResult), starK p k s = some r →
      ∃ u w, s = u ++ w ∧ (∀ c ∈ u, p c = true) ∧ k w = some r := by
  intro s
  induction s with
  | nil => intro r h; exact ⟨[], [], rfl, by simp, h⟩
  | cons c t ih =>
    intro r h
    simp only [starK] at h
    split at h
    · rename_i hc
      cases h2 : starK p k t with
      | some r' =>
        rw [h2] at h
        simp only [Option.some.injEq] at h
        subst h
        obtain ⟨u, w, hs, hu, hk⟩ := ih r' h2
        refine ⟨c :: u, w, by simp [hs], ?_, hk⟩
        intro d hd
        rcases List.mem_cons.mp hd with e | e
        · subst e; exact hc
        · exact hu d e
      | none =>
        rw [h2] at h
        exact ⟨[], c :: t, rfl, by simp, h⟩
    · exact ⟨[], c :: t, rfl, by simp, h⟩

theorem findMatch_sound (re : List Inst) : ∀ (s start : Str) (r : MatchResult),
    findMatch re s = some (start, r) →
      ∃ pre, s = pre ++ start ∧ matchInsts re start [] = some r := by
  intro s
  induction s with
  | nil =>
    intro start r h
    simp only [findMatch, Option.map_eq_some', Prod.mk.injEq] at h
    obtain ⟨a, ha, hs, hr⟩ := h
    subst hs; subst hr
    exact ⟨[], rfl, ha⟩
  | cons c t ih =>
    intro start r h
    simp only [findMatch] at h
    cases hm : matchInsts re (c :: t) [] with
    | some r' =>
      rw [hm] at h
      simp only [Option.some.injEq, Prod.mk.injEq] at h
      obtain ⟨hs, hr⟩ := h
      subst hs; subst hr
      exact ⟨[], rfl, hm⟩
    | none =>
      rw [hm] at h
      obtain ⟨pre, hs, hk⟩ := ih start r h
      exact ⟨c :: pre, by simp [hs], hk⟩

/-- Where the pattern `.*{.+}.*` matches, the text holds `{`, then at least one character and
no line feed, then `}`. -/
theorem matchInsts_placeholder_sound (s : Str) (r : MatchResult)
    (h : matchInsts placeholderPattern s [] = some r) :
    ∃ x y z, s = x ++ '{' :: (y ++ '}' :: z) ∧ y ≠ [] ∧ '\n' ∉ y := by
  simp only [placeholderPattern, matchInsts] at h
  obtain ⟨u, w, hs, _, hk⟩ := starK_sound_prefix _ _ _ _ h
  match w, hk with
  | c :: w1, hk =>
    simp only at hk
    split at hk
    · rename_i hc
      match w1, hk with
      | d :: w2, hk =>
        simp only at hk
        split at hk
        · rename_i hd
          obtain ⟨u2, w3, hs2, hu2, hk2⟩ := starK_sound_prefix _ _ _ _ hk
          match w3, hk2 with
          | e :: w4, hk2 =>
            simp only at hk2
            split at hk2
            · rename_i he
              have hc' : c = '{' := by simpa using hc
              have he' : e = '}' := by simpa using he
              refine ⟨u, d :: u2, w4, ?_, by simp, ?_⟩
              · rw [hs, hs2, hc', he']; simp
              · intro hmem
                rcases List.mem_cons.mp hmem with e1 | e1
                · rw [← e1] at hd; simp [anyChar] at hd
                · have := hu2 _ e1
                  simp [anyChar] at this
            · simp at hk2
        · simp at hk
    · simp at hk

theorem FindAllString1_placeholder_none (v : Str)
    (hno : ∀ x y z, v = x ++ '{' :: (y ++ '}' :: z) → y ≠ [] → '\n' ∈ y) :
    FindAllString1 placeholderPattern v = [] := by
  unfold FindAllString1
  cases h : findMatch placeholderPattern v with
  | none => rfl
  | some m =>
    obtain ⟨start, r⟩ := m
    obtain ⟨pre, hv, hm⟩ := findMatch_sound _ _ _ _ h
    obtain ⟨x, y, z, hs, hy, hline⟩ := matchInsts_placeholder_sound start r hm
    exact absurd (hno (pre ++ x) y z (by rw [hv, hs]; simp) hy) hline

/-- C17: when the version field of the chart text holds no `{` that at least one character
and then `}` follow on the same line, `SanitizeChartContent` returns the chart text as it is;
so for the versions `1.2.3` and `1_0`, in which the pattern finds nothing. -/
theorem C17_no_placeholder_unchanged (unmarshal : Str → Option HelmChart) (content : Str)
    (chart : HelmChart) (hparse : unmarshal content = some chart)
    (hno : ∀ x y z, chart.Version = x ++ '{' :: (y ++ '}' :: z) → y ≠ [] → '\n' ∈ y) :
    SanitizeChartContent unmarshal content = some content ∧
    FindAllString1 placeholderPattern "1.2.3".toList = [] ∧
    FindAllString1 placeholderPattern "1_0".toList = [] := by
  refine ⟨?_, by decide, by decide⟩
  simp only [SanitizeChartContent, hparse, FindAllString1_placeholder_none chart.Version hno,
    List.length_nil, ne_eq, not_true_eq_false, if_false]

theorem C17_no_placeholder_unchanged_witness :
    SanitizeChartContent plainUnmarshal "name: c\nversion: 1_0\n".toList
      = some "name: c\nversion: 1_0\n".toList ∧
    FindAllString1 placeholderPattern "1.2.3".toList = [] ∧
    FindAllString1 placeholderPattern "1_0".toList = [] :=
  C17_no_placeholder_unchanged plainUnmarshal "name: c\nversion: 1_0\n".toList
    ⟨[], "c".toList, [], [], "1_0".toList, []⟩ (by decide) (by
      intro x y z h _
      have h' : "1_0".toList = x ++ '{' :: (y ++ '}' :: z) := h
      have hmem : '{' ∈ "1_0".toList := by rw [h']; simp
      exact absurd hmem (by decide))

/-! ## Termination of ExecuteFunc -/

/-- An iteration of the loop of `ExecuteFunc` that does not exit goes on with a shorter
remainder, when a delimiter is not empty. -/
theorem remainder_shortens (startTag endTag s : Str) (n m : Nat)
    (hne : startTag ≠ [] ∨ endTag ≠ [])
    (h1 : Index s startTag = some n)
    (h2 : Index (s.drop (n + startTag.length)) endTag = some m) :
    ((s.drop (n + startTag.length)).drop (m + endTag.length)).length < s.length := by
  have hpos : 0 < startTag.length + endTag.length := by
    rcases hne with h | h
    · have := List.length_pos.mpr h; omega
    · have := List.length_pos.mpr h; omega
  have b1 := Index_bound _ _ _ h1
  have b2 := Index_bound _ _ _ h2
  simp only [List.length_drop] at b2 ⊢
  omega

/-- With both delimiters empty the loop of `ExecuteFunc` does not end, as long as neither the
writer nor the resolver gives an error: no number of iterations is enough. -/
theorem executeLoop_empty_delimiters {σ : Type} (wr : Writer σ) (f : TagFunc σ)
    (hwr : ∀ w s, (wr.WriteString w s).2.2 = none) (hf : ∀ w tag, (f w tag).2.2 = none) :
    ∀ (fuel : Nat) (s : Str) (w : σ) (nn : Int), executeLoop wr [] [] f fuel s w nn = none := by
  have hidx : ∀ s : Str, Index s [] = some 0 := by
    intro s
    cases s <;> simp [Index]
  intro fuel
  induction fuel with
  | zero => intro s w nn; rfl
  | succ k ih =>
    intro s w nn
    rw [executeLoop]
    simp only [hidx, List.length_nil, Nat.add_zero, List.drop_zero, hwr, hf]
    exact ih _ _ _

/-- C18: when a delimiter is not empty, `ExecuteFunc` returns for every template, writer and
resolver: `len(template) + 1` iterations of its loop give a result, the same as any larger
number of iterations, because an iteration that does not exit goes on with a shorter
remainder; `ApplyStamping` returns for every text and mapping. -/
theorem C18_ExecuteFunc_terminates {σ : Type} (wr : Writer σ) (f : TagFunc σ)
    (template startTag endTag : Str) (w : σ) (hne : startTag ≠ [] ∨ endTag ≠ []) :
    (∃ r, ExecuteFunc (template.length + 1) template startTag endTag wr w f = some r ∧
      ∀ fuel, template.length < fuel →
        ExecuteFunc fuel template startTag endTag wr w f = some r) ∧
    (∀ (s : Str) (n m : Nat), Index s startTag = some n →
      Index (s.drop (n + startTag.length)) endTag = some m →
      ((s.drop (n + startTag.length)).drop (m + endTag.length)).length < s.length) ∧
    (∀ (content : Str) (stamps : GoMap), ∃ out, ApplyStamping content stamps = some out) := by
  refine ⟨?_, fun s n m h1 h2 => remainder_shortens startTag endTag s n m hne h1 h2, ?_⟩
  · obtain ⟨r, hr⟩ := executeLoop_terminates wr startTag endTag f hne
      (template.length + 1) template w 0 (Nat.lt_succ_self _)
    exact ⟨r, hr, fun fuel hlt =>
      executeLoop_mono wr startTag endTag f _ fuel hlt template w 0 r hr⟩
  · intro content stamps
    obtain ⟨o, ho, _⟩ := ApplyStamping_run stamps content
    exact ⟨o, ho⟩

theorem C18_ExecuteFunc_terminates_witness :
    ∃ r, ExecuteFunc ("a<<x>>b<<y".toList.length + 1) "a<<x>>b<<y".toList "<<".toList []
        builderWriter [] bracketTag = some r ∧
      ∀ fuel, "a<<x>>b<<y".toList.length < fuel →
        ExecuteFunc fuel "a<<x>>b<<y".toList "<<".toList [] builderWriter [] bracketTag = some r :=
  (C18_ExecuteFunc_terminates builderWriter bracketTag "a<<x>>b<<y".toList "<<".toList []
    ([] : Str) (Or.inl (by decide))).1

/-! ## LoadStamps on the lines of the files -/

theorem textLinesFrom_eq_map : ∀ (rest cur : Str),
    textLinesFrom cur rest = (rawLinesFrom cur rest).map dropCR := by
  intro rest
  induction rest with
  | nil => intro cur; by_cases h : cur = [] <;> simp [textLinesFrom, rawLinesFrom, h]
  | cons c rest ih =>
    intro cur
    by_cases hc : c = '\n'
    · simp [textLinesFrom, rawLinesFrom, hc, ih []]
    · simp [textLinesFrom, rawLinesFrom, hc, ih (cur ++ [c])]

theorem rawLinesFrom_current : ∀ (rest cur : Str), cur ≠ [] →
    ∃ l ∈ rawLinesFrom cur rest, cur.length ≤ l.length := by
  intro rest
  induction rest with
  | nil =>
    intro cur hcur
    exact ⟨cur, by simp [rawLinesFrom, hcur], le_refl _⟩
  | cons c rest ih =>
    intro cur hcur
    by_cases hc : c = '\n'
    · exact ⟨cur, by simp [rawLinesFrom, hc], le_refl _⟩
    · obtain ⟨l, hl, hlen⟩ := ih (cur ++ [c]) (by simp)
      refine ⟨l, by simpa [rawLinesFrom, hc] using hl, ?_⟩
      simp only [List.length_append, List.length_singleton] at hlen
      omega

theorem scanLinesFrom_of_short : ∀ (rest cur : Str),
    (∀ l ∈ rawLinesFrom cur rest, l.length < MaxScanTokenSize) →
    scanLinesFrom cur rest = textLinesFrom cur rest := by
  intro rest
  induction rest with
  | nil => intro cur _; rfl
  | cons c rest ih =>
    intro cur h
    by_cases hc : c = '\n'
    · simp only [rawLinesFrom, hc, if_true, List.mem_cons, forall_eq_or_imp] at h
      simp only [scanLinesFrom, textLinesFrom, hc, if_true, ih [] h.2]
    · simp only [rawLinesFrom, hc, if_false] at h
      obtain ⟨l, hl, hlen⟩ := rawLinesFrom_current rest (cur ++ [c]) (by simp)
      have hb := h l hl
      simp only [List.length_append, List.length_singleton] at hlen
      have hlt : ¬ MaxScanTokenSize ≤ cur.length + 1 := by omega
      simp only [scanLinesFrom, textLinesFrom, hc, if_false, hlt, ih (cur ++ [c]) h]

/-- The scanner of `LoadStamps` delivers the lines of the file when each of them, as it
stands, is shorter than `MaxScanTokenSize`. -/
theorem scanLines_of_short (content : Str)
    (h : ∀ l ∈ rawLines content, l.length < MaxScanTokenSize) :
    scanLines content = textLines content :=
  scanLinesFrom_of_short content [] h

/-- A line that reaches `MaxScanTokenSize` bytes ends the scan: nothing more is delivered. -/
theorem scanLinesFrom_long (rest : Str) : ∀ (n : Nat) (cur : Str),
    MaxScanTokenSize ≤ cur.length + n → cur.length < MaxScanTokenSize →
    scanLinesFrom cur (List.replicate n 'a' ++ rest) = [] := by
  intro n
  induction n with
  | zero => intro cur h1 h2; omega
  | succ n ih =>
    intro cur h1 h2
    have ha : ¬ 'a' = '\n' := by decide
    show scanLinesFrom cur ('a' :: (List.replicate n 'a' ++ rest)) = []
    rw [scanLinesFrom, if_neg ha]
    split
    · rfl
    · rename_i hlt
      exact ih (cur ++ ['a']) (by simp only [List.length_append, List.length_singleton]; omega)
        (by simp only [List.length_append, List.length_singleton]; omega)

theorem textLinesFrom_replicate (rest : Str) : ∀ (n : Nat) (cur : Str),
    textLinesFrom cur (List.replicate n 'a' ++ '\n' :: rest)
      = dropCR (cur ++ List.replicate n 'a') :: textLinesFrom [] rest := by
  intro n
  induction n with
  | zero => intro cur; simp [textLinesFrom]
  | succ n ih =>
    intro cur
    have ha : ¬ 'a' = '\n' := by decide
    show textLinesFrom cur ('a' :: (List.replicate n 'a' ++ '\n' :: rest)) = _
    rw [textLinesFrom, if_neg ha, ih (cur ++ ['a'])]
    simp [List.replicate_succ]

theorem scanLines_longLineContent : scanLines longLineContent = [] :=
  scanLinesFrom_long _ 65536 [] (by decide) (by decide)

theorem lastBinding_longLineContent :
    lastBinding (textLines longLineContent) "FOO".toList = some "2".toList := by
  have h : textLines longLineContent
      = dropCR ([] ++ List.replicate 65536 'a') :: textLinesFrom [] "FOO 2\n".toList :=
    textLinesFrom_replicate "FOO 2\n".toList 65536 []
  rw [h, lastBinding_cons]
  have h2 : lastBinding (textLinesFrom [] "FOO 2\n".toList) "FOO".toList = some "2".toList := by
    decide
  rw [h2]

/-- C4, as the code has it: with the status files `A` and `B` read in that order, each line of
which is shorter than `MaxScanTokenSize` (64 KiB), a key bound by a line of `B` is bound in
the result of `LoadStamps` to the value `B` gives it, and a key that no line of `B` binds has
the value `A` gives it; with `FOO 1` in `A` and `FOO 2` in `B` the result binds `FOO` to `2`. -/
theorem C4_later_file_overrides (fs : FileSystem) (A B ca cb : Str) (hA : A ≠ []) (hB : B ≠ [])
    (hfa : fs A = some ca) (hfb : fs B = some cb)
    (hsa : ∀ l ∈ rawLines ca, l.length < MaxScanTokenSize)
    (hsb : ∀ l ∈ rawLines cb, l.length < MaxScanTokenSize) :
    (∃ m, LoadStamps fs A B = some m ∧ ∀ k,
      (∀ v, lastBinding (textLines cb) k = some v → m.get k = some v) ∧
      (lastBinding (textLines cb) k = none → m.get k = lastBinding (textLines ca) k)) ∧
    (LoadStamps exampleFS "A".toList "B".toList).map (fun m => m.get "FOO".toList)
      = some (some "2".toList) := by
  refine ⟨⟨_, LoadStamps_two fs A B ca cb hA hB hfa hfb, fun k => ⟨?_, ?_⟩⟩, by decide⟩
  · intro v hv
    rw [scanStamps_get, scanLines_of_short cb hsb, hv]
  · intro hn
    rw [scanStamps_get, scanLines_of_short cb hsb, hn, scanStamps_get,
      scanLines_of_short ca hsa]
    cases lastBinding (textLines ca) k <;> rfl

theorem C4_later_file_overrides_witness :
    (∃ m, LoadStamps exampleFS "A".toList "B".toList = some m ∧ ∀ k,
      (∀ v, lastBinding (textLines "novalue\r\nFOO 2".toList) k = some v → m.get k = some v) ∧
      (lastBinding (textLines "novalue\r\nFOO 2".toList) k = none →
        m.get k = lastBinding (textLines "FOO 1\nBAR x y\n".toList) k)) ∧
    (LoadStamps exampleFS "A".toList "B".toList).map (fun m => m.get "FOO".toList)
      = some (some "2".toList) :=
  C4_later_file_overrides exampleFS "A".toList "B".toList _ _
    (by decide) (by decide) (by decide) (by decide) (by decide) (by decide)

/-- C4 fails for a file with a line of 64 KiB: the file `L` has a first line of 65536 bytes
and the second line `FOO 2`, which binds `FOO` to `2`; the scanner gives up at the first line,
nothing of `L` is read, and `LoadStamps(A, L)` binds `FOO` to the `1` of the file `A`. -/
theorem C4_long_line_counterexample :
    lastBinding (textLines longLineContent) "FOO".toList = some "2".toList ∧
    (LoadStamps longLineFS "A".toList "L".toList).map (fun m => m.get "FOO".toList)
      = some (some "1".toList) := by
  refine ⟨lastBinding_longLineContent, ?_⟩
  rw [LoadStamps_two longLineFS "A".toList "L".toList "FOO 1\n".toList longLineContent
    (by decide) (by decide) rfl rfl, scanLines_longLineContent]
  decide

/-- C5, as the code has it: `LoadStamps` with one status file as its only source, in either
position, each line of the file being shorter than `MaxScanTokenSize` (64 KiB), returns the
mapping that binds a key `k` to the text after the first space of the last line of the file
that contains a space and has `k` before its first space, and binds no other key; the value
keeps further spaces (`BUILD_TIME Mon Jan 1` binds `BUILD_TIME` to `Mon Jan 1`) and a line
without a space binds nothing. -/
theorem C5_status_file_parsed (fs : FileSystem) (p content : Str) (hp : p ≠ [])
    (hf : fs p = some content) (hs : ∀ l ∈ rawLines content, l.length < MaxScanTokenSize) :
    (∃ m, LoadStamps fs p [] = some m ∧ ∀ k, m.get k = lastBinding (textLines content) k) ∧
    (∃ m, LoadStamps fs [] p = some m ∧ ∀ k, m.get k = lastBinding (textLines content) k) ∧
    (∀ k, (∀ l ∈ textLines content, ' ' ∉ l) → lastBinding (textLines content) k = none) ∧
    (LoadStamps exampleFS "T".toList []).map (fun m => m.get "BUILD_TIME".toList)
      = some (some "Mon Jan 1".toList) := by
  refine ⟨⟨_, LoadStamps_first fs p content hp hf, fun k => ?_⟩,
    ⟨_, LoadStamps_second fs p content hp hf, fun k => ?_⟩, ?_, by decide⟩
  · rw [scanStamps_get, scanLines_of_short content hs]
    cases lastBinding (textLines content) k <;> rfl
  · rw [scanStamps_get, scanLines_of_short content hs]
    cases lastBinding (textLines content) k <;> rfl
  · intro k hno
    unfold lastBinding
    rw [Option.map_eq_none', List.find?_eq_none]
    intro l hl
    have := hno l (List.mem_reverse.mp hl)
    simp [this]

theorem C5_status_file_parsed_witness :
    (∃ m, LoadStamps exampleFS "T".toList [] = some m ∧
      ∀ k, m.get k = lastBinding (textLines "BUILD_TIME Mon Jan 1\n".toList) k) ∧
    (∃ m, LoadStamps exampleFS [] "T".toList = some m ∧
      ∀ k, m.get k = lastBinding (textLines "BUILD_TIME Mon Jan 1\n".toList) k) ∧
    (∀ k, (∀ l ∈ textLines "BUILD_TIME Mon Jan 1\n".toList, ' ' ∉ l) →
      lastBinding (textLines "BUILD_TIME Mon Jan 1\n".toList) k = none) ∧
    (LoadStamps exampleFS "T".toList []).map (fun m => m.get "BUILD_TIME".toList)
      = some (some "Mon Jan 1".toList) :=
  C5_status_file_parsed exampleFS "T".toList _ (by decide) (by decide) (by decide)

/-- C5 fails for a file with a line of 64 KiB: the last line of the file `L` that binds `FOO`
is `FOO 2`, after a first line of 65536 bytes; the scanner gives up at the first line and
`LoadStamps` with `L` as its only source binds nothing to `FOO`. -/
theorem C5_long_line_counterexample :
    lastBinding (textLines longLineContent) "FOO".toList = some "2".toList ∧
    (LoadStamps longLineFS "L".toList []).map (fun m => m.get "FOO".toList) = some none := by
  refine ⟨lastBinding_longLineContent, ?_⟩
  rw [LoadStamps_first longLineFS "L".toList longLineContent (by decide) rfl,
    scanLines_longLineContent]
  rfl

/-! ## LoadImageStamps on a list of descriptors -/

theorem SameSets_start (url : Str) (acc : GoMap) : SameSets url acc acc GoMap.empty := by
  intro k
  simp [GoMap.get_empty]

theorem SameSets_set (url key : Str) (acc m m0 : GoMap) (h : SameSets url acc m m0) :
    SameSets url acc (m.set key url) (m0.set key url) := by
  intro k
  rw [GoMap.get_set, GoMap.get_set]
  by_cases hk : key = k
  · simp [hk]
  · simp only [hk, if_false]
    exact h k

theorem registerImage_SameSets (ws : Str) (acc : GoMap) (d : ImageManifest) :
    SameSets (d.Registry ++ ['/'] ++ d.Repository ++ ['@'] ++ d.Digest) acc
      (registerImage ws acc d) (registerImage ws GoMap.empty d) := by
  unfold registerImage
  simp only []
  split_ifs <;>
    repeat (first | exact SameSets_start _ _ | apply SameSets_set)

theorem registerImage_get (ws : Str) (acc : GoMap) (d : ImageManifest) (k : Str) :
    (registerImage ws acc d).get k =
      if k ∈ (registerImage ws GoMap.empty d).keys
      then some (d.Registry ++ ['/'] ++ d.Repository ++ ['@'] ++ d.Digest)
      else acc.get k := by
  rw [registerImage_SameSets ws acc d k]
  by_cases h : (registerImage ws GoMap.empty d).get k ≠ none
  · rw [if_pos h, if_pos ((GoMap.mem_keys _ _).mpr h)]
  · rw [if_neg h, if_neg (fun hk => h ((GoMap.mem_keys _ _).mp hk))]

theorem loadImages_total (fs : FileSystem) (ws : Str) (rd : Str → ImageManifest) :
    ∀ (paths : List Str) (acc : GoMap), (∀ q ∈ paths, fs q ≠ none) →
      ∃ m, loadImages fs ws rd acc paths = some m := by
  intro paths
  induction paths with
  | nil => intro acc _; exact ⟨acc, rfl⟩
  | cons q paths ih =>
    intro acc h
    cases hq : fs q with
    | none => exact absurd hq (h q (List.mem_cons_self _ _))
    | some cq =>
      obtain ⟨m, hm⟩ := ih (registerImage ws acc (rd cq))
        (fun x hx => h x (List.mem_cons_of_mem _ hx))
      refine ⟨m, ?_⟩
      rw [loadImages]
      simp only [hq]
      exact hm

theorem loadImages_append (fs : FileSystem) (ws : Str) (rd : Str → ImageManifest)
    (post : List Str) : ∀ (pre : List Str) (acc : GoMap),
      loadImages fs ws rd acc (pre ++ post)
        = (loadImages fs ws rd acc pre).bind (fun a => loadImages fs ws rd a post) := by
  intro pre
  induction pre with
  | nil => intro acc; simp [loadImages]
  | cons q pre ih =>
    intro acc
    show loadImages fs ws rd acc (q :: (pre ++ post)) = _
    rw [loadImages, loadImages]
    cases hq : fs q with
    | none => simp
    | some cq => simp only; exact ih _

theorem loadImages_keeps_key (fs : FileSystem) (ws : Str) (rd : Str → ImageManifest) (k : Str) :
    ∀ (paths : List Str) (acc m : GoMap), loadImages fs ws rd acc paths = some m →
      acc.get k ≠ none → m.get k ≠ none := by
  intro paths
  induction paths with
  | nil =>
    intro acc m h hk
    simp only [loadImages, Option.some.injEq] at h
    rw [← h]; exact hk
  | cons q paths ih =>
    intro acc m h hk
    rw [loadImages] at h
    cases hq : fs q with
    | none => simp [hq] at h
    | some cq =>
      simp only [hq] at h
      refine ih _ m h ?_
      rw [registerImage_get]
      split_ifs
      · simp
      · exact hk

theorem loadImages_untouched (fs : FileSystem) (ws : Str) (rd : Str → ImageManifest) (k : Str) :
    ∀ (paths : List Str) (acc m : GoMap), loadImages fs ws rd acc paths = some m →
      (∀ q ∈ paths, ∀ cq, fs q = some cq → k ∉ (registerImage ws GoMap.empty (rd cq)).keys) →
      m.get k = acc.get k := by
  intro paths
  induction paths with
  | nil =>
    intro acc m h _
    simp only [loadImages, Option.some.injEq] at h
    rw [← h]
  | cons q paths ih =>
    intro acc m h hno
    rw [loadImages] at h
    cases hq : fs q with
    | none => simp [hq] at h
    | some cq =>
      simp only [hq] at h
      rw [ih _ m h (fun x hx => hno x (List.mem_cons_of_mem _ hx)), registerImage_get,
        if_neg (hno q (List.mem_cons_self _ _) cq hq)]

/-- The mapping that `LoadImageStamps` returns for a manifest that lists the descriptor `d`
between the descriptors of `pre` and of `post`: a key bound to `url` by the loop iteration of
`d` is a key of the mapping, and it is bound to `url` when no descriptor of `post` is
registered under it. -/
theorem LoadImageStamps_at (fs : FileSystem) (unmarshalPaths : Str → List Str)
    (rd : Str → ImageManifest) (imageManifest ws content p c : Str) (pre post : List Str)
    (him : imageManifest ≠ []) (hfs : fs imageManifest = some content)
    (hpaths : unmarshalPaths content = pre ++ p :: post)
    (hpre : ∀ q ∈ pre, fs q ≠ none) (hpost : ∀ q ∈ post, fs q ≠ none)
    (hp : fs p = some c) :
    ∃ m, LoadImageStamps fs unmarshalPaths imageManifest ws rd = some m ∧
      ∀ k url, (∀ acc, (registerImage ws acc (rd c)).get k = some url) →
        k ∈ m.keys ∧
        ((∀ q ∈ post, ∀ cq, fs q = some cq →
            k ∉ (registerImage ws GoMap.empty (rd cq)).keys) → m.get k = some url) := by
  have h0 : ¬ imageManifest.length = 0 := fun h => him (List.length_eq_zero.mp h)
  obtain ⟨a, ha⟩ := loadImages_total fs ws rd pre GoMap.empty hpre
  obtain ⟨m, hm⟩ := loadImages_total fs ws rd post (registerImage ws a (rd c)) hpost
  have hall : loadImages fs ws rd GoMap.empty (pre ++ p :: post) = some m := by
    rw [loadImages_append, ha]
    show loadImages fs ws rd a (p :: post) = some m
    rw [loadImages]
    simp only [hp]
    exact hm
  refine ⟨m, ?_, ?_⟩
  · simp only [LoadImageStamps, h0, if_false, hfs, hpaths, hall]
  · intro k url hk
    refine ⟨?_, ?_⟩
    · rw [GoMap.mem_keys]
      exact loadImages_keeps_key fs ws rd k post _ m hm (by rw [hk a]; simp)
    · intro hno
      rw [loadImages_untouched fs ws rd k post _ m hm hno, hk a]

/-- C7, as the code has it: when the manifest lists a descriptor with label `@//` + `rest`,
registry `R`, repository `P` and digest `D` at any place among descriptors that can all be
read, the mapping that `LoadImageStamps` returns contains the keys `@//` + `rest`,
`@` + `ws` + `//` + `rest` and `@@//` + `rest`, and each of them under which no descriptor
listed later is registered is bound to `R/P@D`: all three are when the descriptor is listed
alone or last. -/
theorem C7_slash_label_spellings (fs : FileSystem) (unmarshalPaths : Str → List Str)
    (applyReadManifest : Str → ImageManifest) (imageManifest ws content p c rest R P D : Str)
    (pre post : List Str)
    (him : imageManifest ≠ []) (hfs : fs imageManifest = some content)
    (hpaths : unmarshalPaths content = pre ++ p :: post)
    (hpre : ∀ q ∈ pre, fs q ≠ none) (hpost : ∀ q ∈ post, fs q ≠ none)
    (hp : fs p = some c)
    (hd : applyReadManifest c = ⟨['@', '/', '/'] ++ rest, R, P, D⟩) :
    ∃ m, LoadImageStamps fs unmarshalPaths imageManifest ws applyReadManifest = some m ∧
      ∀ k ∈ [['@', '/', '/'] ++ rest, ['@'] ++ ws ++ ['/', '/'] ++ rest,
          ['@', '@', '/', '/'] ++ rest],
        k ∈ m.keys ∧
        ((∀ q ∈ post, ∀ cq, fs q = some cq →
            k ∉ (registerImage ws GoMap.empty (applyReadManifest cq)).keys) →
          m.get k = some (R ++ ['/'] ++ P ++ ['@'] ++ D)) := by
  obtain ⟨m, hm, h⟩ := LoadImageStamps_at fs unmarshalPaths applyReadManifest imageManifest ws
    content p c pre post him hfs hpaths hpre hpost hp
  refine ⟨m, hm, ?_⟩
  intro k hk
  apply h k
  intro acc
  rw [hd, registerImage_slash]
  simp only [GoMap.get_set]
  simp only [List.mem_cons, List.mem_singleton, List.not_mem_nil, or_false] at hk
  rcases hk with hk | hk | hk <;> subst hk <;> simp

theorem C7_slash_label_spellings_witness :
    ∃ m, LoadImageStamps pairFS pairPaths "images.json".toList "ws".toList
        (pairReader "@//pkg:img".toList "//other:img".toList) = some m ∧
      m.get "@//pkg:img".toList = some "reg.io/repo/img@sha256:11".toList ∧
      m.get "@ws//pkg:img".toList = some "reg.io/repo/img@sha256:11".toList ∧
      m.get "@@//pkg:img".toList = some "reg.io/repo/img@sha256:11".toList := by
  obtain ⟨m, hm, h⟩ := C7_slash_label_spellings pairFS pairPaths
    (pairReader "@//pkg:img".toList "//other:img".toList) "images.json".toList "ws".toList
    "[\"a.json\",\"b.json\"]".toList "a.json".toList "a".toList "pkg:img".toList
    "reg.io".toList "repo/img".toList "sha256:11".toList [] ["b.json".toList]
    (by decide) (by decide) (by decide) (by decide) (by decide) (by decide) rfl
  have hb : ∀ k, k ∈ ["@//pkg:img".toList, "@ws//pkg:img".toList, "@@//pkg:img".toList] →
      ∀ q ∈ ["b.json".toList], ∀ cq, pairFS q = some cq →
        k ∉ (registerImage "ws".toList GoMap.empty
          (pairReader "@//pkg:img".toList "//other:img".toList cq)).keys := by
    intro k hk q hq cq hcq
    rw [List.mem_singleton] at hq
    subst hq
    have e : cq = "b".toList := (Option.some.inj hcq).symm
    subst e
    revert k
    decide
  exact ⟨m, hm, (h _ (by decide)).2 (hb _ (by decide)), (h _ (by decide)).2 (hb _ (by decide)),
    (h _ (by decide)).2 (hb _ (by decide))⟩

/-- C7 fails for a descriptor that is followed by another: the manifest lists the descriptor
labelled `@//pkg:img` with digest `sha256:11` and then the descriptor labelled `@@//pkg:img`
with digest `sha256:22`, and in the mapping returned the three keys of the first descriptor
are bound to the URL of the second. -/
theorem C7_later_descriptor_counterexample :
    pairReader "@//pkg:img".toList "@@//pkg:img".toList "a".toList
      = ⟨"@//pkg:img".toList, "reg.io".toList, "repo/img".toList, "sha256:11".toList⟩ ∧
    (LoadImageStamps pairFS pairPaths "images.json".toList "ws".toList
        (pairReader "@//pkg:img".toList "@@//pkg:img".toList)).map
      (fun m => [m.get "@//pkg:img".toList, m.get "@ws//pkg:img".toList,
        m.get "@@//pkg:img".toList])
      = some [some "reg.io/repo/img@sha256:22".toList, some "reg.io/repo/img@sha256:22".toList,
        some "reg.io/repo/img@sha256:22".toList] :=
  ⟨rfl, by decide⟩

/-- C15, as the code has it: when the manifest lists a descriptor with label
`@@_main//` + `rest`, registry `R`, repository `P` and digest `D` at any place among
descriptors that can all be read, the mapping that `LoadImageStamps` returns contains the raw
label and the keys `@@` + `ws` + `//` + `rest`, `@` + `ws` + `//` + `rest` and
`@//` + `rest`, and each of them under which no descriptor listed later is registered is
bound to `R/P@D`: all four are when the descriptor is listed alone or last. -/
theorem C15_main_label_spellings (fs : FileSystem) (unmarshalPaths : Str → List Str)
    (applyReadManifest : Str → ImageManifest) (imageManifest ws content p c rest R P D : Str)
    (pre post : List Str)
    (him : imageManifest ≠ []) (hfs : fs imageManifest = some content)
    (hpaths : unmarshalPaths content = pre ++ p :: post)
    (hpre : ∀ q ∈ pre, fs q ≠ none) (hpost : ∀ q ∈ post, fs q ≠ none)
    (hp : fs p = some c)
    (hd : applyReadManifest c = ⟨"@@_main//".toList ++ rest, R, P, D⟩) :
    ∃ m, LoadImageStamps fs unmarshalPaths imageManifest ws applyReadManifest = some m ∧
      ∀ k ∈ ["@@_main//".toList ++ rest, ['@', '@'] ++ ws ++ ['/', '/'] ++ rest,
          ['@'] ++ ws ++ ['/', '/'] ++ rest, ['@', '/', '/'] ++ rest],
        k ∈ m.keys ∧
        ((∀ q ∈ post, ∀ cq, fs q = some cq →
            k ∉ (registerImage ws GoMap.empty (applyReadManifest cq)).keys) →
          m.get k = some (R ++ ['/'] ++ P ++ ['@'] ++ D)) := by
  obtain ⟨m, hm, h⟩ := LoadImageStamps_at fs unmarshalPaths applyReadManifest imageManifest ws
    content p c pre post him hfs hpaths hpre hpost hp
  refine ⟨m, hm, ?_⟩
  intro k hk
  apply h k
  intro acc
  rw [hd, registerImage_main]
  simp only [GoMap.get_set]
  simp only [List.mem_cons, List.mem_singleton, List.not_mem_nil, or_false] at hk
  rcases hk with hk | hk | hk | hk <;> subst hk <;> simp

theorem C15_main_label_spellings_witness :
    ∃ m, LoadImageStamps pairFS pairPaths "images.json".toList "ws".toList
        (pairReader "@@_main//pkg:img".toList "//other:img".toList) = some m ∧
      m.get "@@_main//pkg:img".toList = some "reg.io/repo/img@sha256:11".toList ∧
      m.get "@@ws//pkg:img".toList = some "reg.io/repo/img@sha256:11".toList ∧
      m.get "@ws//pkg:img".toList = some "reg.io/repo/img@sha256:11".toList ∧
      m.get "@//pkg:img".toList = some "reg.io/repo/img@sha256:11".toList := by
  obtain ⟨m, hm, h⟩ := C15_main_label_spellings pairFS pairPaths
    (pairReader "@@_main//pkg:img".toList "//other:img".toList) "images.json".toList
    "ws".toList "[\"a.json\",\"b.json\"]".toList "a.json".toList "a".toList "pkg:img".toList
    "reg.io".toList "repo/img".toList "sha256:11".toList [] ["b.json".toList]
    (by decide) (by decide) (by decide) (by decide) (by decide) (by decide) rfl
  have hb : ∀ k, k ∈ ["@@_main//pkg:img".toList, "@@ws//pkg:img".toList,
        "@ws//pkg:img".toList, "@//pkg:img".toList] →
      ∀ q ∈ ["b.json".toList], ∀ cq, pairFS q = some cq →
        k ∉ (registerImage "ws".toList GoMap.empty
          (pairReader "@@_main//pkg:img".toList "//other:img".toList cq)).keys := by
    intro k hk q hq cq hcq
    rw [List.mem_singleton] at hq
    subst hq
    have e : cq = "b".toList := (Option.some.inj hcq).symm
    subst e
    revert k
    decide
  exact ⟨m, hm, (h _ (by decide)).2 (hb _ (by decide)), (h _ (by decide)).2 (hb _ (by decide)),
    (h _ (by decide)).2 (hb _ (by decide)), (h _ (by decide)).2 (hb _ (by decide))⟩

/-- C15 fails for a descriptor that is followed by another: the manifest lists the descriptor
labelled `@@_main//pkg:img` with digest `sha256:11` and then the descriptor labelled
`@@//pkg:img` with digest `sha256:22`, and in the mapping returned the raw label is bound to
the URL of the first descriptor and its three other keys to the URL of the second. -/
theorem C15_later_descriptor_counterexample :
    pairReader "@@_main//pkg:img".toList "@@//pkg:img".toList "a".toList
      = ⟨"@@_main//pkg:img".toList, "reg.io".toList, "repo/img".toList, "sha256:11".toList⟩ ∧
    (LoadImageStamps pairFS pairPaths "images.json".toList "ws".toList
        (pairReader "@@_main//pkg:img".toList "@@//pkg:img".toList)).map
      (fun m => [m.get "@@_main//pkg:img".toList, m.get "@@ws//pkg:img".toList,
        m.get "@ws//pkg:img".toList, m.get "@//pkg:img".toList])
      = some [some "reg.io/repo/img@sha256:11".toList, some "reg.io/repo/img@sha256:22".toList,
        some "reg.io/repo/img@sha256:22".toList, some "reg.io/repo/img@sha256:22".toList] :=
  ⟨rfl, by decide⟩

/-! ## SanitizeChartContent on the version field -/

/-- C9, as the code has it: when the version field of the chart text is a single line that
holds `{`, at least one character and `}`, and the chart text with every occurrence of the
version string replaced by the version string without its braces and with `-` for each `_`
parses as a chart with that string for its version, then the version field of the text that
`SanitizeChartContent` returns contains none of the characters `{`, `}`, `_`; the chart text
with the version `{BUILD_EMBED_LABEL}` becomes the chart text with the version
`BUILD-EMBED-LABEL`. -/
theorem C9_single_line_version_sanitized (unmarshal : Str → Option HelmChart) (content : Str)
    (chart chart' : HelmChart) (x y z : Str) (hparse : unmarshal content = some chart)
    (hv : chart.Version = x ++ '{' :: (y ++ '}' :: z)) (hy : y ≠ [])
    (hline : '\n' ∉ chart.Version)
    (hout : unmarshal (ReplaceAll content chart.Version (replacerReplace chart.Version))
      = some chart')
    (hlit : chart'.Version = replacerReplace chart.Version) :
    (∃ out, SanitizeChartContent unmarshal content = some out ∧ unmarshal out = some chart' ∧
      ∀ c ∈ chart'.Version, c ≠ '{' ∧ c ≠ '}' ∧ c ≠ '_') ∧
    SanitizeChartContent exampleUnmarshal "name: c\nversion: \"{BUILD_EMBED_LABEL}\"\n".toList
      = some "name: c\nversion: \"BUILD-EMBED-LABEL\"\n".toList ∧
    (exampleUnmarshal "name: c\nversion: \"BUILD-EMBED-LABEL\"\n".toList).map
      (fun c => c.Version) = some "BUILD-EMBED-LABEL".toList := by
  refine ⟨⟨ReplaceAll content chart.Version (replacerReplace chart.Version), ?_, hout, ?_⟩,
    by decide, by decide⟩
  · have hm : FindAllString1 placeholderPattern chart.Version = [chart.Version] := by
      rw [hv] at hline ⊢
      exact FindAllString1_placeholder x y z hy hline
    simp only [SanitizeChartContent, hparse, hm, List.length_singleton, ne_eq, one_ne_zero,
      not_false_eq_true, if_true, List.getD_cons_zero]
  · rw [hlit]
    exact replacerReplace_clean chart.Version

theorem C9_single_line_version_sanitized_witness :
    ∃ out, SanitizeChartContent exampleUnmarshal
        "name: c\nversion: \"{BUILD_EMBED_LABEL}\"\n".toList = some out ∧
      exampleUnmarshal out = some ⟨[], "c".toList, [], [], "BUILD-EMBED-LABEL".toList, []⟩ ∧
      ∀ c ∈ "BUILD-EMBED-LABEL".toList, c ≠ '{' ∧ c ≠ '}' ∧ c ≠ '_' :=
  (C9_single_line_version_sanitized exampleUnmarshal
    "name: c\nversion: \"{BUILD_EMBED_LABEL}\"\n".toList
    ⟨[], "c".toList, [], [], "{BUILD_EMBED_LABEL}".toList, []⟩
    ⟨[], "c".toList, [], [], "BUILD-EMBED-LABEL".toList, []⟩
    [] "BUILD_EMBED_LABEL".toList [] (by decide) (by decide) (by decide) (by decide)
    (by decide) (by decide)).1

/-- C9 fails for three chart texts, each with a placeholder left in its version.  The version
of two lines, `{A}` and `{B_C}`: `SanitizeChartContent` replaces `{A}` alone, and the version
of the text it returns is `A` and `{B_C}`.  The version of one line written with an escape
sequence, `{A\x5fB}` in double quotes, which reads `{A_B}`: the chart text does not hold the
string `{A_B}`, it is returned as it is, and its version is `{A_B}`.  The version `{}` in double
quotes: no character stands between the braces, the pattern `.*{.+}.*` does not match, and
the chart text is returned as it is. -/
theorem C9_version_field_counterexample :
    (exampleUnmarshal "name: c\nversion: |-\n  {A}\n  {B_C}\n".toList
        = some ⟨[], "c".toList, [], [], "{A}\n{B_C}".toList, []⟩ ∧
      FindAllString1 placeholderPattern "{A}\n{B_C}".toList = ["{A}".toList] ∧
      SanitizeChartContent exampleUnmarshal "name: c\nversion: |-\n  {A}\n  {B_C}\n".toList
        = some "name: c\nversion: |-\n  A\n  {B_C}\n".toList ∧
      (exampleUnmarshal "name: c\nversion: |-\n  A\n  {B_C}\n".toList).map (fun c => c.Version)
        = some "A\n{B_C}".toList ∧
      '{' ∈ "A\n{B_C}".toList ∧ '}' ∈ "A\n{B_C}".toList ∧ '_' ∈ "A\n{B_C}".toList) ∧
    ((exampleUnmarshal "name: c\nversion: \"\x7bA\\x5fB\x7d\"\n".toList).map
        (fun c => c.Version) = some "{A_B}".toList ∧
      '\n' ∉ "{A_B}".toList ∧
      FindAllString1 placeholderPattern "{A_B}".toList = ["{A_B}".toList] ∧
      SanitizeChartContent exampleUnmarshal "name: c\nversion: \"\x7bA\\x5fB\x7d\"\n".toList
        = some "name: c\nversion: \"\x7bA\\x5fB\x7d\"\n".toList ∧
      '{' ∈ "{A_B}".toList ∧ '}' ∈ "{A_B}".toList ∧ '_' ∈ "{A_B}".toList) ∧
    ((exampleUnmarshal "name: c\nversion: \"{}\"\n".toList).map (fun c => c.Version)
        = some "{}".toList ∧
      FindAllString1 placeholderPattern "{}".toList = [] ∧
      SanitizeChartContent exampleUnmarshal "name: c\nversion: \"{}\"\n".toList
        = some "name: c\nversion: \"{}\"\n".toList ∧
      '{' ∈ "{}".toList ∧ '}' ∈ "{}".toList) := by
  decide

end Packager
